import Mathlib

/-!
Verification development for the parallel-vectorize work distribution engine
(`numbapro/vectorize/parallel.py`).

The Python source is a code generator that emits, via LLVM, the runtime engine:
per-thread work queues `WorkQueue {next, last, lock}`, a shared context, a
dispatcher (`ParallelUFunc.body` / `_populate_workqueues`), and the worker
routine (`UFuncCore.body`: local drain `_do_workqueue`, then work stealing
`_do_work_stealing` / `_do_work_stealing_check`), with the strided kernel
invocation loop `UFuncCoreGeneric._do_work`.

Embedding notes:
* Machine `intp` values are modelled as `ℤ` (the engine's arithmetic on
  `next`/`last` is plain signed arithmetic; no wraparound is reachable for
  valid batches).
* Every mutation of a queue happens inside its spin-lock critical section,
  which is a handful of straight-line operations.  The concurrent engine is
  therefore modelled as an interleaving of *atomic* critical sections: a
  global step relation in which one thread performs one locked section (one
  drain-pop iteration, or one steal-check on one peer).  The lock word itself
  is modelled separately (`lockTry` / `unlockCAS`), and inside the atomic
  model each section leaves the lock word as it found it (0).
* The kernel invocations (`_do_work`) run outside the locks; their memory
  effects are applied in trace order (`applyClaims`).  For valid batches the
  ranges processed are pairwise disjoint and kernel loads never alias kernel
  stores, so the trace-order sequentialization computes the same memory as
  any finer-grained interleaving of the stores.
-/

/-- `GRANULARITY = 256`: number of work items removed per lock acquisition,
both by the owner drain and by a steal. -/
def GRANULARITY : ℤ := 256

/-- `WorkQueue` struct: `next` (next index, inclusive), `last` (one past the
last index), `lock` (0 = unlocked, 1 = locked). -/
structure WorkQueue where
  next : ℤ
  last : ℤ
  lock : ℤ
deriving DecidableEq

/-- A claimed range: thread `tid` claimed `[item, item + amt)` from queue
`src` (from its own queue when `tid = src`, by a steal otherwise). -/
structure WorkClaim (T : ℕ) where
  tid : Fin T
  src : Fin T
  item : ℤ
  amt : ℤ
deriving DecidableEq

/-- Control position of one worker thread:
`drain` = inside the `_do_workqueue` loop;
`steal flag rest` = inside `_do_work_stealing`, `flag` is the current value of
`steal_continue` for this pass and `rest` the peers not yet checked this pass;
`done` = the worker routine has returned. -/
inductive WorkerPhase (T : ℕ) where
  | drain : WorkerPhase T
  | steal : Bool → List (Fin T) → WorkerPhase T
  | done : WorkerPhase T
deriving DecidableEq

/-- Global state of the engine: the queue array, the per-thread `completed`
counters, each thread's control position, and the shared context `shared`
(args/dimensions/steps/data/num_thread), which is opaque to the scheduler. -/
structure SysState (T : ℕ) (σ : Type) where
  queues : Fin T → WorkQueue
  completed : Fin T → ℤ
  phase : Fin T → WorkerPhase T
  shared : σ

/-- The peers a thread iterates over in one steal pass:
`for i in [0, num_thread)` skipping `i = tid`, in ascending order
(`_do_work_stealing_innerloop`). -/
def peers (T : ℕ) (t : Fin T) : List (Fin T) :=
  (List.finRange T).filter (fun i => i != t)

/-- One iteration of the critical section of `_do_workqueue`:
`item = next; AMT = min(GRANULARITY, last - next); next += AMT; last' = last`.
Returns the updated queue together with `(item, AMT, last')`. -/
def drainCS (q : WorkQueue) : WorkQueue × ℤ × ℤ × ℤ :=
  let item := q.next
  let amt := min GRANULARITY (q.last - q.next)
  ({ q with next := q.next + amt }, item, amt, q.last)

/-- Overwrite queue `i`. -/
def setQueue {T : ℕ} {σ : Type} (s : SysState T σ) (i : Fin T) (q : WorkQueue) :
    SysState T σ :=
  { s with queues := Function.update s.queues i q }

/-- Overwrite thread `t`'s `completed` counter. -/
def setCompleted {T : ℕ} {σ : Type} (s : SysState T σ) (t : Fin T) (v : ℤ) :
    SysState T σ :=
  { s with completed := Function.update s.completed t v }

/-- Overwrite thread `t`'s control position. -/
def setPhase {T : ℕ} {σ : Type} (s : SysState T σ) (t : Fin T)
    (p : WorkerPhase T) : SysState T σ :=
  { s with phase := Function.update s.phase t p }

/-- One atomic step of thread `t`: one drain-pop iteration, one steal-check on
the next peer, or the internal pass-end bookkeeping of the steal loop.
Returns the new state and the range claimed (if any). -/
def stepThread {T : ℕ} {σ : Type} (s : SysState T σ) (t : Fin T) :
    SysState T σ × Option (WorkClaim T) :=
  match s.phase t with
  | WorkerPhase.drain =>
    let r := drainCS (s.queues t)
    if r.2.1 ≥ r.2.2.2 then
      -- `item >= last`: break out of the drain loop and enter work stealing
      (setPhase (setQueue s t r.1) t (WorkerPhase.steal false (peers T t)), none)
    else
      -- invoke `_do_work(common, item, AMT, tid)` and `completed += AMT`
      (setCompleted (setQueue s t r.1) t (s.completed t + r.2.2.1),
       some ⟨t, t, r.2.1, r.2.2.1⟩)
  | WorkerPhase.steal flag rest =>
    match rest with
    | [] =>
      -- end of a pass over all peers: loop again iff `steal_continue != 0`
      if flag then
        (setPhase s t (WorkerPhase.steal false (peers T t)), none)
      else
        (setPhase s t WorkerPhase.done, none)
    | p :: rest' =>
      -- `_do_work_stealing_check` on `otherqueue = workqueues[p]`
      let q := s.queues p
      if q.next ≤ q.last - GRANULARITY then
        (setPhase (setCompleted (setQueue s p { q with last := q.last - GRANULARITY }) t (s.completed t + GRANULARITY)) t (WorkerPhase.steal true rest'),
         some ⟨t, p, q.last - GRANULARITY, GRANULARITY⟩)
      else
        (setPhase s t (WorkerPhase.steal flag rest'), none)
  | WorkerPhase.done => (s, none)

/-- Run a schedule (interleaving): at each entry the named thread performs its
next atomic step.  Returns the final state and the claims in trace order. -/
def runSched {T : ℕ} {σ : Type} (s : SysState T σ) :
    List (Fin T) → SysState T σ × List (WorkClaim T)
  | [] => (s, [])
  | t :: ts =>
    let r := stepThread s t
    let rest := runSched r.1 ts
    (rest.1, r.2.toList ++ rest.2)

/-- A schedule is valid when every scheduled thread still has a step to take
(its worker routine has not yet returned). -/
def validSched {T : ℕ} {σ : Type} (s : SysState T σ) : List (Fin T) → Bool
  | [] => true
  | t :: ts => (s.phase t != WorkerPhase.done) && validSched (stepThread s t).1 ts

/-- All workers have returned. -/
def allDone {T : ℕ} {σ : Type} (s : SysState T σ) : Prop :=
  ∀ t : Fin T, s.phase t = WorkerPhase.done

instance {T : ℕ} {σ : Type} (s : SysState T σ) : Decidable (allDone s) :=
  inferInstanceAs (Decidable (∀ t : Fin T, s.phase t = WorkerPhase.done))

/-- Chunk computation of `ParallelUFunc.body`: `ChunkSize = N / num_thread`
(signed division; both operands are nonnegative for valid batches); if
`ChunkSize == 0` then reassign `ChunkSize = 1` and `num_thread = N`.
Returns `(ChunkSize, num_thread)` after the reassignment. -/
def setupChunk (N T : ℤ) : ℤ × ℤ :=
  let c := N / T
  if c = 0 then (1, N) else (c, T)

/-- Net result of `_populate_workqueues` for queue `i` (with `Tq` the possibly
reassigned thread count): the loop sets `next = i * ChunkSize`,
`last = (i+1) * ChunkSize`, `lock = 0`, and afterwards queue `Tq - 1` has its
`last` overwritten to `N`. -/
def initQueue (N chunk Tq : ℤ) (i : ℤ) : WorkQueue :=
  if i = Tq - 1 then { next := i * chunk, last := N, lock := 0 }
  else { next := i * chunk, last := (i + 1) * chunk, lock := 0 }

/-- The loop of `_populate_workqueues`, run for `n` iterations over an
unbounded index space (the allocated array occupies indices
`[0, num_thread)`): iteration `i` sets `next = i * ChunkSize`,
`last = (i+1) * ChunkSize`, `lock = 0`. -/
def popLoop (chunk : ℤ) (arr : ℤ → WorkQueue) : ℕ → ℤ → WorkQueue
  | 0 => arr
  | Nat.succ n =>
    Function.update (popLoop chunk arr n) (n : ℤ)
      { next := (n : ℤ) * chunk, last := ((n : ℤ) + 1) * chunk, lock := 0 }

/-- `_populate_workqueues`: run the loop for all `Tq` thread indices, then
overwrite `workqueues[Tq - 1].last = N`.  `arr` is the (uninitialized)
alloca contents. -/
def populate_workqueues (N chunk Tq : ℤ) (arr : ℤ → WorkQueue) :
    ℤ → WorkQueue :=
  let arr' := popLoop chunk arr Tq.toNat
  Function.update arr' (Tq - 1) { arr' (Tq - 1) with last := N }

/-- Index written by the post-loop overwrite `workqueues[num_thread - 1]` in
`_populate_workqueues`, given the original `N` and thread count `T`. -/
def lastOverwriteIndex (N T : ℤ) : ℤ := (setupChunk N T).2 - 1

/-- Number of worker threads the dispatcher spawns (`_dispatch_worker` loops
over the possibly reassigned `num_thread`). -/
def spawnCount (N T : ℤ) : ℤ := (setupChunk N T).2

/-- Engine state right after dispatch: queues populated, `completed = 0`,
every worker at the start of its local drain. -/
def initSys (N chunk : ℤ) (T : ℕ) {σ : Type} (sh : σ) : SysState T σ :=
  { queues := fun i => initQueue N chunk (T : ℤ) (i : ℤ)
    completed := fun _ => 0
    phase := fun _ => WorkerPhase.drain
    shared := sh }

/-! ### Lock word model (`WorkQueue.Lock` / `WorkQueue.Unlock`)

`Lock` loops on `atomic_cmpxchg(lock, 0, 1, acquire)` until the observed
prior value is 0; `Unlock` performs `atomic_cmpxchg(lock, 1, 0, release)` and
executes `unreachable` (aborts) if the observed prior value is not 1.  The
acquire/release orderings themselves are below the granularity of this
embedding; the value semantics of the CAS is modelled exactly. -/

/-- One CAS attempt of `Lock`: from a lock word `l`, returns
`(new lock word, observed prior value)`; the attempt succeeds (and the spin
loop exits) exactly when the observed prior value is 0. -/
def lockTry (l : ℤ) : ℤ × ℤ := if l = 0 then (1, 0) else (l, l)

/-- The CAS of `Unlock`: `none` models the `unreachable` abort branch, taken
exactly when the observed prior value is not 1. -/
def unlockCAS (l : ℤ) : Option ℤ := if l = 1 then some 0 else none

/-! ### Strided kernel invocation (`UFuncCoreGeneric._do_work`)

Memory is a total map from byte addresses (`ℤ`) to values of the element type
`V`; loads and stores of a whole element at an address are primitive.  A batch
descriptor carries the `A + 1` base pointers (inputs then output), the
`A + 1` byte strides, and the scalar kernel `f`. -/

/-- Memory: byte address to element value. -/
def Mem (V : Type) := ℤ → V

/-- Store one element at address `a`. -/
def storeMem {V : Type} (m : Mem V) (a : ℤ) (v : V) : Mem V :=
  fun x => if x = a then v else m x

/-- Batch descriptor: `args[i]`/`steps[i]` for `i ∈ [0, A]` (index `A` is the
output), and the pure scalar kernel `f`. -/
structure BatchDesc (A : ℕ) (V : Type) where
  args : Fin (A + 1) → ℤ
  steps : Fin (A + 1) → ℤ
  f : (Fin A → V) → V

/-- Address of input `i` at element index `k`: `args[i] + k * steps[i]`. -/
def inAddr {A : ℕ} {V : Type} (b : BatchDesc A V) (i : Fin A) (k : ℤ) : ℤ :=
  b.args i.castSucc + k * b.steps i.castSucc

/-- Address of the output slot at element index `k`: `args[A] + k * steps[A]`. -/
def outAddr {A : ℕ} {V : Type} (b : BatchDesc A V) (k : ℤ) : ℤ :=
  b.args (Fin.last A) + k * b.steps (Fin.last A)

/-- The inner loop of `_do_work`, given the current argument pointers: each
iteration loads every input, calls `f`, stores the result through the output
pointer, and advances every pointer by its stride. -/
def do_work_loop {A : ℕ} {V : Type} (b : BatchDesc A V) :
    (Fin (A + 1) → ℤ) → ℕ → Mem V → Mem V
  | _, 0, m => m
  | ptrs, Nat.succ k, m =>
    let vals : Fin A → V := fun i => m (ptrs i.castSucc)
    let m' := storeMem m (ptrs (Fin.last A)) (b.f vals)
    do_work_loop b (fun i => ptrs i + b.steps i) k m'

/-- `_do_work(common, item, count, tid)`: start pointers at
`args[i] + item * steps[i]` and run the inner loop `count` times. -/
def do_work {A : ℕ} {V : Type} (b : BatchDesc A V) (item : ℤ) (count : ℕ)
    (m : Mem V) : Mem V :=
  do_work_loop b (fun i => b.args i + item * b.steps i) count m

/-- Memory effect of a batch: apply each claimed range's `_do_work` in trace
order (justified for valid batches by disjointness of the claimed ranges and
non-aliasing of kernel loads with kernel stores). -/
def applyClaims {T A : ℕ} {V : Type} (b : BatchDesc A V) :
    List (WorkClaim T) → Mem V → Mem V
  | [], m => m
  | c :: cs, m => applyClaims b cs (do_work b c.item c.amt.toNat m)

/-- Validity of a batch's layout on `[0, N)`: distinct element indices have
distinct output slots, and no input address coincides with any output
address (the kernel is elementwise and pure; its loads never alias its
stores). -/
def NoAlias {A : ℕ} {V : Type} (b : BatchDesc A V) (N : ℤ) : Prop :=
  (∀ k ∈ Finset.Ico 0 N, ∀ k' ∈ Finset.Ico 0 N, k ≠ k' →
      outAddr b k ≠ outAddr b k') ∧
  (∀ i : Fin A, ∀ k ∈ Finset.Ico 0 N, ∀ k' ∈ Finset.Ico 0 N,
      inAddr b i k ≠ outAddr b k')

/-! ### Claim accounting -/

/-- The multiset of element indices covered by one claim. -/
def claimIco {T : ℕ} (c : WorkClaim T) : Multiset ℤ :=
  Multiset.Ico c.item (c.item + c.amt)

/-- Indices claimed from queue `q`, over a claim list. -/
def claimedFrom {T : ℕ} (q : Fin T) : List (WorkClaim T) → Multiset ℤ
  | [] => 0
  | c :: cs => (if c.src = q then claimIco c else 0) + claimedFrom q cs

/-- Total amount claimed by thread `t` (what its `completed` counter adds). -/
def amtBy {T : ℕ} (t : Fin T) : List (WorkClaim T) → ℤ
  | [] => 0
  | c :: cs => (if c.tid = t then c.amt else 0) + amtBy t cs

/-- Total amount claimed from queue `q`. -/
def amtFrom {T : ℕ} (q : Fin T) : List (WorkClaim T) → ℤ
  | [] => 0
  | c :: cs => (if c.src = q then c.amt else 0) + amtFrom q cs

/-- All indices claimed, over all threads and queues. -/
def totalClaimed {T : ℕ} : List (WorkClaim T) → Multiset ℤ
  | [] => 0
  | c :: cs => claimIco c + totalClaimed cs


/-! ### Invariant, measure and instance definitions -/

/-- Well-formedness of the initial queue assignment: every queue's range lies
inside `[0, N]` in order. -/
def QInit {T : ℕ} (init : Fin T → WorkQueue) (N : ℤ) : Prop :=
  ∀ q : Fin T, 0 ≤ (init q).next ∧ (init q).next ≤ (init q).last ∧
    (init q).last ≤ N

/-- The inductive invariant of a batch, relative to the initial queue
assignment `init`: queue fronts only advance and tails only retract, in
order; a thread that has left its drain loop has drained its queue; the
claims taken from queue `q` are exactly the front segment
`[init.next, next)` plus the stolen tail `[last, init.last)`; `completed`
counts each thread's claims; all claims are nonempty; steals always claim a
full `GRANULARITY` chunk; the lock words rest unlocked between critical
sections. -/
structure EngineInv {T : ℕ} {σ : Type} (init : Fin T → WorkQueue)
    (s : SysState T σ) (cs : List (WorkClaim T)) : Prop where
  mono_next : ∀ q : Fin T, (init q).next ≤ (s.queues q).next
  mono_last : ∀ q : Fin T, (s.queues q).last ≤ (init q).last
  order : ∀ q : Fin T, (s.queues q).next ≤ (s.queues q).last
  drained : ∀ t : Fin T, s.phase t ≠ WorkerPhase.drain →
    (s.queues t).next = (s.queues t).last
  claims_eq : ∀ q : Fin T, claimedFrom q cs =
    Multiset.Ico (init q).next ((s.queues q).next) +
    Multiset.Ico ((s.queues q).last) ((init q).last)
  compl_eq : ∀ t : Fin T, s.completed t = amtBy t cs
  amt_from_eq : ∀ q : Fin T, amtFrom q cs =
    ((s.queues q).next - (init q).next) + ((init q).last - (s.queues q).last)
  amt_pos : ∀ c ∈ cs, 1 ≤ c.amt
  steal_amt : ∀ c ∈ cs, c.tid ≠ c.src → c.amt = GRANULARITY
  lock_zero : ∀ q : Fin T, (s.queues q).lock = (init q).lock

/-- Cut points of the initial partition: `0, chunk, 2*chunk, …,
(Tq-1)*chunk, N`. -/
def initCut (N chunk Tq : ℤ) (i : ℕ) : ℤ :=
  if (i : ℤ) < Tq then (i : ℤ) * chunk else N

/-- Remaining work of one queue. -/
def queueGap (q : WorkQueue) : ℕ := (q.last - q.next).toNat

/-- Total unclaimed work across all queues. -/
def workLeft {T : ℕ} {σ : Type} (s : SysState T σ) : ℕ :=
  ∑ q : Fin T, queueGap (s.queues q)

/-- Remaining control-flow budget of one worker (counts the drain-loop exit,
steal passes and per-peer checks still owed; a set `steal_continue` flag owes
one more full pass). -/
def phaseMeasure {T : ℕ} : WorkerPhase T → ℕ
  | WorkerPhase.drain => T + 2
  | WorkerPhase.steal false rest => rest.length + 1
  | WorkerPhase.steal true rest => rest.length + 1 + (T + 1)
  | WorkerPhase.done => 0

/-- Total control-flow budget. -/
def phaseSum {T : ℕ} {σ : Type} (s : SysState T σ) : ℕ :=
  ∑ t : Fin T, phaseMeasure (s.phase t)

/-- The global termination measure: every atomic step strictly decreases it. -/
def sysMeasure {T : ℕ} {σ : Type} (s : SysState T σ) : ℕ :=
  (T + 2) * workLeft s + phaseSum s

/-- Steal lists never exceed the number of threads (they are suffixes of
`peers`). -/
def PhaseWF {T : ℕ} {σ : Type} (s : SysState T σ) : Prop :=
  ∀ (t : Fin T) (flag : Bool) (rest : List (Fin T)),
    s.phase t = WorkerPhase.steal flag rest → rest.length ≤ T

/-- Every queue's remaining range is below the steal granularity. -/
def SmallSpread {T : ℕ} {σ : Type} (s : SysState T σ) : Prop :=
  ∀ q : Fin T, (s.queues q).last - (s.queues q).next < GRANULARITY

/-- `do_work_loop` with the pointers positioned at element offset `s`. -/
def do_work_at {A : ℕ} {V : Type} (b : BatchDesc A V) (s : ℤ) (count : ℕ)
    (m : Mem V) : Mem V :=
  do_work_loop b (fun i => b.args i + s * b.steps i) count m

/-- The audited race check of `ParallelUFunc.body`: taken (the program
aborts) exactly when the summed `completed` counters differ from `N`. -/
def raceAuditAborts {T : ℕ} {σ : Type} (s : SysState T σ) (N : ℤ) : Prop :=
  ¬ (∑ t : Fin T, s.completed t) = N

/-- A two-thread state with thread 0 in its steal pass facing a peer queue
holding 300 items. -/
def wSteal : SysState 2 Unit :=
  { queues := fun i => if i = 0 then ⟨0, 0, 0⟩ else ⟨300, 600, 0⟩
    completed := fun _ => 0
    phase := fun i => if i = 0 then WorkerPhase.steal false [1] else WorkerPhase.drain
    shared := () }

/-- A one-input identity-layout batch: input at bytes `100 + k`, output at
`200 + k`, kernel `x → x + 1`. -/
def c1b : BatchDesc 1 ℤ :=
  { args := ![100, 200]
    steps := ![1, 1]
    f := fun v => v 0 + 1 }

/-- Initial memory for the concrete batch: address `a` holds value `a`. -/
def c1m : Mem ℤ := fun a => a

@[simp] theorem claimedFrom_append {T : ℕ} (q : Fin T) (cs ds : List (WorkClaim T)) :
    claimedFrom q (cs ++ ds) = claimedFrom q cs + claimedFrom q ds := by
  induction cs with
  | nil => simp [claimedFrom]
  | cons c cs ih => simp [claimedFrom, ih, add_assoc]

@[simp] theorem amtBy_append {T : ℕ} (t : Fin T) (cs ds : List (WorkClaim T)) :
    amtBy t (cs ++ ds) = amtBy t cs + amtBy t ds := by
  induction cs with
  | nil => simp [amtBy]
  | cons c cs ih => simp [amtBy, ih]; ring

@[simp] theorem amtFrom_append {T : ℕ} (q : Fin T) (cs ds : List (WorkClaim T)) :
    amtFrom q (cs ++ ds) = amtFrom q cs + amtFrom q ds := by
  induction cs with
  | nil => simp [amtFrom]
  | cons c cs ih => simp [amtFrom, ih]; ring

@[simp] theorem totalClaimed_append {T : ℕ} (cs ds : List (WorkClaim T)) :
    totalClaimed (cs ++ ds) = totalClaimed cs + totalClaimed ds := by
  induction cs with
  | nil => simp [totalClaimed]
  | cons c cs ih => simp [totalClaimed, ih, add_assoc]

/-- Splitting `totalClaimed` by source queue. -/
theorem totalClaimed_eq_sum_claimedFrom {T : ℕ} (cs : List (WorkClaim T)) :
    totalClaimed cs = ∑ q : Fin T, claimedFrom q cs := by
  induction cs with
  | nil => simp [totalClaimed, claimedFrom]
  | cons c cs ih =>
    simp only [totalClaimed, claimedFrom, ih, Finset.sum_add_distrib]
    congr 1
    rw [Finset.sum_ite_eq]
    simp

/-- Splitting the total claimed amount by claiming thread. -/
theorem sum_amtBy {T : ℕ} (cs : List (WorkClaim T)) :
    ∑ t : Fin T, amtBy t cs = (cs.map (fun c => c.amt)).sum := by
  induction cs with
  | nil => simp [amtBy]
  | cons c cs ih =>
    simp only [amtBy, Finset.sum_add_distrib, List.map_cons, List.sum_cons, ih]
    rw [Finset.sum_ite_eq]
    simp

@[simp] theorem setQueue_queues {T : ℕ} {σ : Type} (s : SysState T σ) (i : Fin T) (q : WorkQueue) :
    (setQueue s i q).queues = Function.update s.queues i q := rfl

@[simp] theorem setQueue_completed {T : ℕ} {σ : Type} (s : SysState T σ) (i : Fin T) (q : WorkQueue) :
    (setQueue s i q).completed = s.completed := rfl

@[simp] theorem setQueue_phase {T : ℕ} {σ : Type} (s : SysState T σ) (i : Fin T) (q : WorkQueue) :
    (setQueue s i q).phase = s.phase := rfl

@[simp] theorem setQueue_shared {T : ℕ} {σ : Type} (s : SysState T σ) (i : Fin T) (q : WorkQueue) :
    (setQueue s i q).shared = s.shared := rfl

@[simp] theorem setCompleted_queues {T : ℕ} {σ : Type} (s : SysState T σ) (t : Fin T) (v : ℤ) :
    (setCompleted s t v).queues = s.queues := rfl

@[simp] theorem setCompleted_completed {T : ℕ} {σ : Type} (s : SysState T σ) (t : Fin T) (v : ℤ) :
    (setCompleted s t v).completed = Function.update s.completed t v := rfl

@[simp] theorem setCompleted_phase {T : ℕ} {σ : Type} (s : SysState T σ) (t : Fin T) (v : ℤ) :
    (setCompleted s t v).phase = s.phase := rfl

@[simp] theorem setCompleted_shared {T : ℕ} {σ : Type} (s : SysState T σ) (t : Fin T) (v : ℤ) :
    (setCompleted s t v).shared = s.shared := rfl

@[simp] theorem setPhase_queues {T : ℕ} {σ : Type} (s : SysState T σ) (t : Fin T) (p : WorkerPhase T) :
    (setPhase s t p).queues = s.queues := rfl

@[simp] theorem setPhase_completed {T : ℕ} {σ : Type} (s : SysState T σ) (t : Fin T) (p : WorkerPhase T) :
    (setPhase s t p).completed = s.completed := rfl

@[simp] theorem setPhase_phase {T : ℕ} {σ : Type} (s : SysState T σ) (t : Fin T) (p : WorkerPhase T) :
    (setPhase s t p).phase = Function.update s.phase t p := rfl

@[simp] theorem setPhase_shared {T : ℕ} {σ : Type} (s : SysState T σ) (t : Fin T) (p : WorkerPhase T) :
    (setPhase s t p).shared = s.shared := rfl

/-! ### Branch equations for `stepThread` -/

theorem stepThread_drain_break {T : ℕ} {σ : Type} {s : SysState T σ} {t : Fin T}
    (hp : s.phase t = WorkerPhase.drain)
    (hbr : (s.queues t).last ≤ (s.queues t).next) :
    stepThread s t =
      (setPhase
        (setQueue s t
          { s.queues t with
            next := (s.queues t).next +
              min GRANULARITY ((s.queues t).last - (s.queues t).next) })
        t (WorkerPhase.steal false (peers T t)), none) := by
  simp only [stepThread, hp, drainCS]
  rw [if_pos]
  exact hbr

theorem stepThread_drain_claim {T : ℕ} {σ : Type} {s : SysState T σ} {t : Fin T}
    (hp : s.phase t = WorkerPhase.drain)
    (hlt : (s.queues t).next < (s.queues t).last) :
    stepThread s t =
      (setCompleted
        (setQueue s t
          { s.queues t with
            next := (s.queues t).next +
              min GRANULARITY ((s.queues t).last - (s.queues t).next) })
        t (s.completed t + min GRANULARITY ((s.queues t).last - (s.queues t).next)),
       some ⟨t, t, (s.queues t).next,
             min GRANULARITY ((s.queues t).last - (s.queues t).next)⟩) := by
  simp only [stepThread, hp, drainCS]
  rw [if_neg]
  omega

theorem stepThread_pass_again {T : ℕ} {σ : Type} {s : SysState T σ} {t : Fin T}
    (hp : s.phase t = WorkerPhase.steal true []) :
    stepThread s t =
      (setPhase s t (WorkerPhase.steal false (peers T t)), none) := by
  simp [stepThread, hp]

theorem stepThread_pass_done {T : ℕ} {σ : Type} {s : SysState T σ} {t : Fin T}
    (hp : s.phase t = WorkerPhase.steal false []) :
    stepThread s t = (setPhase s t WorkerPhase.done, none) := by
  simp [stepThread, hp]

theorem stepThread_steal_hit {T : ℕ} {σ : Type} {s : SysState T σ} {t p : Fin T}
    {flag : Bool} {rest : List (Fin T)}
    (hp : s.phase t = WorkerPhase.steal flag (p :: rest))
    (hcond : (s.queues p).next ≤ (s.queues p).last - GRANULARITY) :
    stepThread s t =
      (setPhase
        (setCompleted
          (setQueue s p { s.queues p with last := (s.queues p).last - GRANULARITY })
          t (s.completed t + GRANULARITY))
        t (WorkerPhase.steal true rest),
       some ⟨t, p, (s.queues p).last - GRANULARITY, GRANULARITY⟩) := by
  simp only [stepThread, hp]
  rw [if_pos hcond]

theorem stepThread_steal_miss {T : ℕ} {σ : Type} {s : SysState T σ} {t p : Fin T}
    {flag : Bool} {rest : List (Fin T)}
    (hp : s.phase t = WorkerPhase.steal flag (p :: rest))
    (hcond : ¬ (s.queues p).next ≤ (s.queues p).last - GRANULARITY) :
    stepThread s t = (setPhase s t (WorkerPhase.steal flag rest), none) := by
  simp only [stepThread, hp]
  rw [if_neg hcond]

theorem stepThread_done {T : ℕ} {σ : Type} {s : SysState T σ} {t : Fin T}
    (hp : s.phase t = WorkerPhase.done) :
    stepThread s t = (s, none) := by
  simp [stepThread, hp]

/-! ### The engine invariant -/

theorem GRANULARITY_pos : (0:ℤ) < GRANULARITY := by norm_num [GRANULARITY]

/-- The invariant holds before any worker takes a step. -/
theorem engineInv_start {T : ℕ} {σ : Type} (s : SysState T σ)
    (h0 : ∀ t, s.completed t = 0)
    (hph : ∀ t, s.phase t = WorkerPhase.drain)
    (hord : ∀ q, (s.queues q).next ≤ (s.queues q).last) :
    EngineInv s.queues s [] := by
  refine ⟨fun q => le_refl _, fun q => le_refl _, hord, ?_, ?_, ?_, ?_, ?_, ?_, ?_⟩
  · intro t hne; exact absurd (hph t) hne
  · intro q; simp [claimedFrom, Multiset.Ico_self]
  · intro t; simpa [amtBy] using h0 t
  · intro q; simp [amtFrom]
  · intro c hc; simp at hc
  · intro c hc; simp at hc
  · intro q; rfl

/-- Steps that only change a thread's control position (and that position was
already outside the drain loop) preserve the invariant. -/
theorem engineInv_setPhase {T : ℕ} {σ : Type} {init : Fin T → WorkQueue}
    {s : SysState T σ} {cs : List (WorkClaim T)} (h : EngineInv init s cs)
    {t : Fin T} (p : WorkerPhase T) (hold : s.phase t ≠ WorkerPhase.drain) :
    EngineInv init (setPhase s t p) cs := by
  refine ⟨h.mono_next, h.mono_last, h.order, ?_, h.claims_eq, h.compl_eq,
    h.amt_from_eq, h.amt_pos, h.steal_amt, h.lock_zero⟩
  intro u hu
  rcases eq_or_ne u t with rfl | hne
  · exact h.drained u hold
  · apply h.drained u
    simpa [setPhase, Function.update_apply, hne] using hu

/-- A breaking drain iteration (queue exhausted) preserves the invariant. -/
theorem engineInv_drain_break {T : ℕ} {σ : Type} {init : Fin T → WorkQueue}
    {s : SysState T σ} {cs : List (WorkClaim T)} (h : EngineInv init s cs)
    {t : Fin T} (hp : s.phase t = WorkerPhase.drain)
    (hbr : (s.queues t).last ≤ (s.queues t).next) :
    EngineInv init (stepThread s t).1 (cs ++ ((stepThread s t).2).toList) := by
  rw [stepThread_drain_break hp hbr]
  have heq : (s.queues t).next = (s.queues t).last :=
    le_antisymm (h.order t) hbr
  have hG := GRANULARITY_pos
  have hzero : min GRANULARITY ((s.queues t).last - (s.queues t).next) = 0 := by
    omega
  have hq : ({ s.queues t with
      next := (s.queues t).next +
        min GRANULARITY ((s.queues t).last - (s.queues t).next) })
      = s.queues t := by
    rw [hzero]; simp
  have hupd : Function.update s.queues t ({ s.queues t with
      next := (s.queues t).next +
        min GRANULARITY ((s.queues t).last - (s.queues t).next) })
      = s.queues := by
    rw [hq]; exact Function.update_eq_self t s.queues
  simp only [List.append_nil, Option.toList_none]
  refine ⟨?_, ?_, ?_, ?_, ?_, ?_, ?_, h.amt_pos, h.steal_amt, ?_⟩
  · intro q; simp only [setPhase_queues, setQueue_queues, hupd]; exact h.mono_next q
  · intro q; simp only [setPhase_queues, setQueue_queues, hupd]; exact h.mono_last q
  · intro q; simp only [setPhase_queues, setQueue_queues, hupd]; exact h.order q
  · intro u hu
    simp only [setPhase_queues, setQueue_queues, hupd]
    rcases eq_or_ne u t with rfl | hne
    · exact heq
    · apply h.drained u
      simpa [setPhase, setQueue, Function.update_apply, hne] using hu
  · intro q; simp only [setPhase_queues, setQueue_queues, hupd]; exact h.claims_eq q
  · intro u; simpa only [setPhase_completed, setQueue_completed] using h.compl_eq u
  · intro q; simp only [setPhase_queues, setQueue_queues, hupd]; exact h.amt_from_eq q
  · intro q; simp only [setPhase_queues, setQueue_queues, hupd]; exact h.lock_zero q

/-- A claiming drain iteration preserves the invariant, extending the claim
list with `(tid = t, src = t, item = next, amt = min(GRANULARITY, avail))`. -/
theorem engineInv_drain_claim {T : ℕ} {σ : Type} {init : Fin T → WorkQueue}
    {s : SysState T σ} {cs : List (WorkClaim T)} (h : EngineInv init s cs)
    {t : Fin T} (hp : s.phase t = WorkerPhase.drain)
    (hlt : (s.queues t).next < (s.queues t).last) :
    EngineInv init (stepThread s t).1 (cs ++ ((stepThread s t).2).toList) := by
  rw [stepThread_drain_claim hp hlt]
  have hG := GRANULARITY_pos
  set q := s.queues t with hqdef
  set amt := min GRANULARITY (q.last - q.next) with hamtdef
  have hamt0 : 0 < amt := by omega
  have hamt1 : amt ≤ q.last - q.next := by omega
  simp only [Option.toList_some]
  refine ⟨?_, ?_, ?_, ?_, ?_, ?_, ?_, ?_, ?_, ?_⟩
  · intro u
    rcases eq_or_ne u t with rfl | hne
    · simp only [setCompleted_queues, setQueue_queues, Function.update_same]
      have := h.mono_next u
      simp only [← hqdef] at this ⊢
      omega
    · simpa [Function.update_noteq hne] using h.mono_next u
  · intro u
    rcases eq_or_ne u t with rfl | hne
    · simp only [setCompleted_queues, setQueue_queues, Function.update_same]
      have := h.mono_last u
      simp only [← hqdef] at this ⊢
      omega
    · simpa [Function.update_noteq hne] using h.mono_last u
  · intro u
    rcases eq_or_ne u t with rfl | hne
    · simp only [setCompleted_queues, setQueue_queues, Function.update_same]
      omega
    · simpa [Function.update_noteq hne] using h.order u
  · intro u hu
    rcases eq_or_ne u t with rfl | hne
    · exact absurd hp (by simpa using hu)
    · simp only [setCompleted_phase, setQueue_phase] at hu
      simpa [Function.update_noteq hne] using h.drained u hu
  · intro u
    rcases eq_or_ne u t with rfl | hne
    · simp only [claimedFrom_append, setCompleted_queues, setQueue_queues,
        Function.update_same]
      rw [h.claims_eq u]
      simp only [claimedFrom, claimIco, if_pos rfl, add_zero]
      have h1 : (init u).next ≤ q.next := by
        have := h.mono_next u; simpa [← hqdef] using this
      have h2 : q.next ≤ q.next + amt := by omega
      rw [← Multiset.Ico_add_Ico_eq_Ico h1 h2]
      abel
    · simp only [claimedFrom_append, setCompleted_queues, setQueue_queues,
        Function.update_noteq hne]
      rw [h.claims_eq u]
      simp only [claimedFrom]
      rw [if_neg (Ne.symm hne)]
      abel
  · intro u
    rcases eq_or_ne u t with rfl | hne
    · simp only [amtBy_append, setCompleted_completed, Function.update_same]
      rw [h.compl_eq u]
      simp [amtBy]
    · simp only [amtBy_append, setCompleted_completed, setQueue_completed,
        Function.update_noteq hne]
      rw [h.compl_eq u]
      simp [amtBy, if_neg (Ne.symm hne)]
  · intro u
    rcases eq_or_ne u t with rfl | hne
    · simp only [amtFrom_append, setCompleted_queues, setQueue_queues,
        Function.update_same]
      have := h.amt_from_eq u
      simp only [← hqdef] at this ⊢
      simp [amtFrom, this]
      ring
    · simp only [amtFrom_append, setCompleted_queues, setQueue_queues,
        Function.update_noteq hne]
      rw [h.amt_from_eq u]
      simp [amtFrom, if_neg hne.symm]
  · intro c hc
    rcases List.mem_append.1 hc with hc | hc
    · exact h.amt_pos c hc
    · simp only [List.mem_singleton] at hc
      subst hc
      simpa using hamt0
  · intro c hc hne
    rcases List.mem_append.1 hc with hc | hc
    · exact h.steal_amt c hc hne
    · simp only [List.mem_singleton] at hc
      subst hc
      exact absurd rfl hne
  · intro u
    rcases eq_or_ne u t with rfl | hne
    · simp only [setCompleted_queues, setQueue_queues, Function.update_same]
      exact h.lock_zero u
    · simpa [Function.update_noteq hne] using h.lock_zero u

/-- A successful steal-check preserves the invariant, extending the claim
list with `(tid = t, src = p, item = last - GRANULARITY, amt = GRANULARITY)`. -/
theorem engineInv_steal_hit {T : ℕ} {σ : Type} {init : Fin T → WorkQueue}
    {s : SysState T σ} {cs : List (WorkClaim T)} (h : EngineInv init s cs)
    {t p : Fin T} {flag : Bool} {rest : List (Fin T)}
    (hp : s.phase t = WorkerPhase.steal flag (p :: rest))
    (hcond : (s.queues p).next ≤ (s.queues p).last - GRANULARITY) :
    EngineInv init (stepThread s t).1 (cs ++ ((stepThread s t).2).toList) := by
  rw [stepThread_steal_hit hp hcond]
  have hG := GRANULARITY_pos
  -- the victim queue's owner is still in its drain loop, else its queue would
  -- be empty, contradicting the availability of a full GRANULARITY chunk
  have hvictim : s.phase p = WorkerPhase.drain := by
    by_contra hne
    have := h.drained p hne
    omega
  simp only [Option.toList_some]
  refine ⟨?_, ?_, ?_, ?_, ?_, ?_, ?_, ?_, ?_, ?_⟩
  · intro u
    rcases eq_or_ne u p with rfl | hne
    · simp only [setPhase_queues, setCompleted_queues, setQueue_queues,
        Function.update_same]
      exact h.mono_next u
    · simpa [Function.update_noteq hne] using h.mono_next u
  · intro u
    rcases eq_or_ne u p with rfl | hne
    · simp only [setPhase_queues, setCompleted_queues, setQueue_queues,
        Function.update_same]
      have := h.mono_last u
      omega
    · simpa [Function.update_noteq hne] using h.mono_last u
  · intro u
    rcases eq_or_ne u p with rfl | hne
    · simp only [setPhase_queues, setCompleted_queues, setQueue_queues,
        Function.update_same]
      omega
    · simpa [Function.update_noteq hne] using h.order u
  · intro u hu
    simp only [setPhase_phase, setCompleted_phase, setQueue_phase] at hu
    rcases eq_or_ne u t with rfl | hut
    · -- the stealer: it was already out of its drain loop
      have hq : u ≠ p := by
        intro he
        have := h.drained u (by rw [hp]; intro hcon; cases hcon)
        rw [he] at this
        omega
      simp only [setPhase_queues, setCompleted_queues, setQueue_queues,
        Function.update_noteq hq]
      exact h.drained u (by rw [hp]; intro hcon; cases hcon)
    · rw [Function.update_noteq hut] at hu
      have hq : u ≠ p := by
        intro he
        have := h.drained u hu
        rw [he] at this
        omega
      simp only [setPhase_queues, setCompleted_queues, setQueue_queues,
        Function.update_noteq hq]
      exact h.drained u hu
  · intro u
    rcases eq_or_ne u p with rfl | hne
    · simp only [claimedFrom_append, setPhase_queues, setCompleted_queues,
        setQueue_queues, Function.update_same]
      rw [h.claims_eq u]
      simp only [claimedFrom, claimIco, if_pos rfl, add_zero]
      have hGsum : (s.queues u).last - GRANULARITY + GRANULARITY
          = (s.queues u).last := by ring
      rw [hGsum]
      have h1 : (s.queues u).last - GRANULARITY ≤ (s.queues u).last := by omega
      have h2 : (s.queues u).last ≤ (init u).last := h.mono_last u
      rw [← Multiset.Ico_add_Ico_eq_Ico h1 h2]
      abel
    · simp only [claimedFrom_append, setPhase_queues, setCompleted_queues,
        setQueue_queues, Function.update_noteq hne]
      rw [h.claims_eq u]
      simp only [claimedFrom]
      rw [if_neg (Ne.symm hne)]
      abel
  · intro u
    rcases eq_or_ne u t with rfl | hne
    · simp only [amtBy_append, setPhase_completed, setCompleted_completed,
        Function.update_same]
      rw [h.compl_eq u]
      simp [amtBy]
    · simp only [amtBy_append, setPhase_completed, setCompleted_completed,
        setQueue_completed, Function.update_noteq hne]
      rw [h.compl_eq u]
      simp [amtBy, if_neg (Ne.symm hne)]
  · intro u
    rcases eq_or_ne u p with rfl | hne
    · simp only [amtFrom_append, setPhase_queues, setCompleted_queues,
        setQueue_queues, Function.update_same]
      rw [h.amt_from_eq u]
      simp [amtFrom]
      ring
    · simp only [amtFrom_append, setPhase_queues, setCompleted_queues,
        setQueue_queues, Function.update_noteq hne]
      rw [h.amt_from_eq u]
      simp [amtFrom, if_neg (Ne.symm hne)]
  · intro c hc
    rcases List.mem_append.1 hc with hc | hc
    · exact h.amt_pos c hc
    · simp only [List.mem_singleton] at hc
      subst hc
      simpa using hG
  · intro c hc hcne
    rcases List.mem_append.1 hc with hc | hc
    · exact h.steal_amt c hc hcne
    · simp only [List.mem_singleton] at hc
      subst hc
      rfl
  · intro u
    rcases eq_or_ne u p with rfl | hne
    · simp only [setPhase_queues, setCompleted_queues, setQueue_queues,
        Function.update_same]
      exact h.lock_zero u
    · simpa [Function.update_noteq hne] using h.lock_zero u

/-- Master preservation: every atomic step preserves the invariant, extending
the claim list with the claim the step produced. -/
theorem engineInv_step {T : ℕ} {σ : Type} {init : Fin T → WorkQueue}
    {s : SysState T σ} {cs : List (WorkClaim T)} (h : EngineInv init s cs)
    (t : Fin T) :
    EngineInv init (stepThread s t).1 (cs ++ ((stepThread s t).2).toList) := by
  rcases hp : s.phase t with _ | ⟨flag, rest⟩ | _
  · rcases le_or_lt (s.queues t).last (s.queues t).next with hbr | hlt
    · exact engineInv_drain_break h hp hbr
    · exact engineInv_drain_claim h hp hlt
  · rcases rest with _ | ⟨p, rest'⟩
    · rcases flag with _ | _
      · rw [stepThread_pass_done hp]
        simpa using engineInv_setPhase h WorkerPhase.done (by rw [hp]; intro hcon; cases hcon)
      · rw [stepThread_pass_again hp]
        simpa using engineInv_setPhase h (WorkerPhase.steal false (peers T t)) (by rw [hp]; intro hcon; cases hcon)
    · rcases le_or_lt (s.queues p).next ((s.queues p).last - GRANULARITY) with hcond | hcond
      · exact engineInv_steal_hit h hp hcond
      · rw [stepThread_steal_miss hp (by omega)]
        simpa using engineInv_setPhase h (WorkerPhase.steal flag rest') (by rw [hp]; intro hcon; cases hcon)
  · rw [stepThread_done hp]
    simpa using h

/-- The invariant carries along any schedule. -/
theorem engineInv_run {T : ℕ} {σ : Type} {init : Fin T → WorkQueue} :
    ∀ (sched : List (Fin T)) (s : SysState T σ) (cs : List (WorkClaim T)),
      EngineInv init s cs →
      EngineInv init (runSched s sched).1 (cs ++ (runSched s sched).2) := by
  intro sched
  induction sched with
  | nil => intro s cs h; simpa [runSched] using h
  | cons t ts ih =>
    intro s cs h
    have h1 := engineInv_step h t
    have h2 := ih (stepThread s t).1 (cs ++ ((stepThread s t).2).toList) h1
    simpa [runSched, List.append_assoc] using h2

/-! ### Dispatcher setup arithmetic -/

/-- After the `ChunkSize == 0` fixup, the chunk is positive, at least one
thread is spawned, and the spawned threads' chunks fit in `[0, N)`. -/
theorem setupChunk_spec (N T₀ : ℤ) (hN : 1 ≤ N) (hT : 1 ≤ T₀) :
    1 ≤ (setupChunk N T₀).1 ∧ 1 ≤ (setupChunk N T₀).2 ∧
    (setupChunk N T₀).2 * (setupChunk N T₀).1 ≤ N := by
  by_cases h : N / T₀ = 0
  · simp only [setupChunk, if_pos h]
    refine ⟨le_refl _, hN, by omega⟩
  · simp only [setupChunk, if_neg h]
    have h1 : 0 ≤ N / T₀ := Int.ediv_nonneg (by omega) (by omega)
    have h2 := Int.ediv_add_emod N T₀
    have h3 := Int.emod_nonneg N (show T₀ ≠ 0 by omega)
    refine ⟨by omega, hT, by linarith⟩

/-- `ChunkSize` is zero exactly in the degenerate case `N < num_thread`. -/
theorem setupChunk_degenerate (N T₀ : ℤ) (h0 : 0 ≤ N) (hNT : N < T₀) :
    setupChunk N T₀ = (1, N) := by
  unfold setupChunk
  rw [Int.ediv_eq_zero_of_lt h0 hNT]
  simp

/-- Field values and bounds of each populated queue: `next = i * ChunkSize`,
`lock = 0`, `last = (i+1) * ChunkSize` except `last = N` for the final queue;
each queue is nonempty and lies in `[0, N]`. -/
theorem initQueue_bounds (N chunk Tq : ℤ) (hc : 1 ≤ chunk) (hT : 1 ≤ Tq)
    (hle : Tq * chunk ≤ N) (i : ℤ) (h0 : 0 ≤ i) (hi : i < Tq) :
    0 ≤ (initQueue N chunk Tq i).next ∧
    (initQueue N chunk Tq i).next < (initQueue N chunk Tq i).last ∧
    (initQueue N chunk Tq i).last ≤ N := by
  have key : (Tq - 1) * chunk ≤ N - chunk := by
    have : (Tq - 1) * chunk = Tq * chunk - chunk := by ring
    linarith
  unfold initQueue
  by_cases h : i = Tq - 1
  · rw [if_pos h]
    subst h
    refine ⟨mul_nonneg (by omega) (by omega), by simp; linarith, by simp⟩
  · rw [if_neg h]
    have hi1 : i + 1 ≤ Tq - 1 := by omega
    have h1 : (i + 1) * chunk ≤ (Tq - 1) * chunk :=
      mul_le_mul_of_nonneg_right hi1 (by omega)
    have h2 : (i + 1) * chunk = i * chunk + chunk := by ring
    refine ⟨mul_nonneg h0 (by omega), ?_, ?_⟩
    · show i * chunk < (i + 1) * chunk
      linarith
    · show (i + 1) * chunk ≤ N
      linarith

theorem initCut_mono (N chunk Tq : ℤ) (hc : 1 ≤ chunk) (hle : Tq * chunk ≤ N) :
    Monotone (initCut N chunk Tq) := by
  have key : (Tq - 1) * chunk ≤ N - chunk := by
    have : (Tq - 1) * chunk = Tq * chunk - chunk := by ring
    linarith
  apply monotone_nat_of_le_succ
  intro n
  unfold initCut
  push_cast
  by_cases h1 : (n : ℤ) < Tq
  · rw [if_pos h1]
    by_cases h2 : (n : ℤ) + 1 < Tq
    · rw [if_pos h2]
      nlinarith [Int.ofNat_nonneg n]
    · rw [if_neg h2]
      have hn1 : (n : ℤ) ≤ Tq - 1 := by omega
      have := mul_le_mul_of_nonneg_right hn1 (show (0:ℤ) ≤ chunk by omega)
      linarith
  · rw [if_neg h1, if_neg (by omega)]

theorem ico_telescope (g : ℕ → ℤ) (hg : Monotone g) (n : ℕ) :
    ∑ i ∈ Finset.range n, Multiset.Ico (g i) (g (i + 1)) =
      Multiset.Ico (g 0) (g n) := by
  induction n with
  | zero => simp [Multiset.Ico_self]
  | succ n ih =>
    rw [Finset.sum_range_succ, ih,
      Multiset.Ico_add_Ico_eq_Ico (hg (Nat.zero_le n)) (hg (Nat.le_succ n))]

/-- Each populated queue's range is the interval between consecutive cuts. -/
theorem initQueue_eq_cut (N chunk Tq : ℤ) (i : ℕ) (hi : (i : ℤ) < Tq) :
    Multiset.Ico ((initQueue N chunk Tq (i : ℤ)).next)
        ((initQueue N chunk Tq (i : ℤ)).last) =
      Multiset.Ico (initCut N chunk Tq i) (initCut N chunk Tq (i + 1)) := by
  unfold initQueue initCut
  by_cases h : (i : ℤ) = Tq - 1
  · rw [if_pos h, if_pos hi, if_neg (by push_cast; omega)]
  · rw [if_neg h, if_pos hi, if_pos (by push_cast; omega)]
    push_cast
    rfl

/-- The initial queue ranges partition `[0, N)` exactly: every element index
appears exactly once across the queues. -/
theorem initQueue_partition (N chunk Tq : ℤ) (T : ℕ) (hTq : (T : ℤ) = Tq)
    (hc : 1 ≤ chunk) (hT : 1 ≤ Tq) (hle : Tq * chunk ≤ N) :
    ∑ i : Fin T, Multiset.Ico ((initQueue N chunk Tq (i : ℤ)).next)
        ((initQueue N chunk Tq (i : ℤ)).last) = Multiset.Ico 0 N := by
  rw [Fin.sum_univ_eq_sum_range
    (fun i => Multiset.Ico ((initQueue N chunk Tq (i : ℤ)).next)
      ((initQueue N chunk Tq (i : ℤ)).last)) T]
  rw [Finset.sum_congr rfl (fun i hi => initQueue_eq_cut N chunk Tq i
    (by rw [← hTq]; exact_mod_cast Finset.mem_range.1 hi))]
  rw [ico_telescope _ (initCut_mono N chunk Tq hc hle) T]
  have hc0 : initCut N chunk Tq 0 = 0 := by
    unfold initCut
    rw [if_pos (by push_cast; omega)]
    ring
  have hcT : initCut N chunk Tq T = N := by
    unfold initCut
    rw [if_neg (by omega)]
  rw [hc0, hcT]

/-- The initial queue lengths sum to `N`. -/
theorem initQueue_length_sum (N chunk Tq : ℤ) (T : ℕ) (hTq : (T : ℤ) = Tq)
    (hc : 1 ≤ chunk) (hT : 1 ≤ Tq) (hle : Tq * chunk ≤ N) :
    ∑ i : Fin T, ((initQueue N chunk Tq (i : ℤ)).last -
        (initQueue N chunk Tq (i : ℤ)).next) = N := by
  have hterm : ∀ i ∈ Finset.range T,
      (initQueue N chunk Tq (i : ℤ)).last - (initQueue N chunk Tq (i : ℤ)).next
        = initCut N chunk Tq (i + 1) - initCut N chunk Tq i := by
    intro i hi
    have hiT : (i : ℤ) < Tq := by
      rw [← hTq]; exact_mod_cast Finset.mem_range.1 hi
    unfold initQueue initCut
    by_cases h : (i : ℤ) = Tq - 1
    · rw [if_pos h, if_pos hiT, if_neg (by push_cast; omega)]
    · rw [if_neg h, if_pos hiT, if_pos (by push_cast; omega)]
      push_cast
      ring
  rw [Fin.sum_univ_eq_sum_range
    (fun i => (initQueue N chunk Tq (i : ℤ)).last -
      (initQueue N chunk Tq (i : ℤ)).next) T]
  rw [Finset.sum_congr rfl hterm, Finset.sum_range_sub (initCut N chunk Tq) T]
  have hc0 : initCut N chunk Tq 0 = 0 := by
    unfold initCut
    rw [if_pos (by push_cast; omega)]
    ring
  have hcT : initCut N chunk Tq T = N := by
    unfold initCut
    rw [if_neg (by omega)]
  rw [hc0, hcT]
  ring

/-- Characterization of the populate loop: indices `[0, n)` hold their
assigned ranges; all others still hold the uninitialized contents. -/
theorem popLoop_spec (chunk : ℤ) (arr : ℤ → WorkQueue) (n : ℕ) (i : ℤ) :
    popLoop chunk arr n i =
      if 0 ≤ i ∧ i < (n : ℤ) then
        { next := i * chunk, last := (i + 1) * chunk, lock := 0 }
      else arr i := by
  induction n with
  | zero =>
    simp only [popLoop, Nat.cast_zero]
    rw [if_neg (by omega)]
  | succ n ih =>
    simp only [popLoop]
    rw [Function.update_apply, ih]
    by_cases h : i = (n : ℤ)
    · subst h
      rw [if_pos rfl, if_pos (by push_cast; omega)]
    · rw [if_neg h]
      by_cases h2 : 0 ≤ i ∧ i < (n : ℤ)
      · rw [if_pos h2, if_pos (by push_cast; omega)]
      · rw [if_neg h2, if_neg (by push_cast; omega)]

/-- `_populate_workqueues` computes `initQueue` at every in-bounds index,
regardless of the uninitialized alloca contents. -/
theorem populate_workqueues_spec (N chunk Tq : ℤ) (arr : ℤ → WorkQueue)
    (hT : 1 ≤ Tq) (i : ℤ) (h0 : 0 ≤ i) (hi : i < Tq) :
    populate_workqueues N chunk Tq arr i = initQueue N chunk Tq i := by
  unfold populate_workqueues initQueue
  rw [Function.update_apply]
  by_cases h : i = Tq - 1
  · rw [if_pos h, if_pos h, popLoop_spec, if_pos (by omega)]
    simp [h]
  · rw [if_neg h, if_neg h, popLoop_spec, if_pos (by omega)]

/-! ### Batch-completion facts -/

theorem sum_amtFrom {T : ℕ} (cs : List (WorkClaim T)) :
    ∑ q : Fin T, amtFrom q cs = (cs.map (fun c => c.amt)).sum := by
  induction cs with
  | nil => simp [amtFrom]
  | cons c cs ih =>
    simp only [amtFrom, Finset.sum_add_distrib, List.map_cons, List.sum_cons, ih]
    rw [Finset.sum_ite_eq]
    simp

@[simp] theorem initSys_queues {T : ℕ} {σ : Type} (N chunk : ℤ) (sh : σ) :
    (initSys N chunk T sh).queues = fun i : Fin T => initQueue N chunk (T : ℤ) (i : ℤ) := rfl

@[simp] theorem initSys_completed {T : ℕ} {σ : Type} (N chunk : ℤ) (sh : σ) :
    (initSys N chunk T sh).completed = fun _ : Fin T => 0 := rfl

@[simp] theorem initSys_phase {T : ℕ} {σ : Type} (N chunk : ℤ) (sh : σ) :
    (initSys N chunk T sh).phase = fun _ : Fin T => WorkerPhase.drain := rfl

/-- The invariant holds at the dispatched state, for a nondegenerate setup. -/
theorem engineInv_initSys {T : ℕ} {σ : Type} (N T₀ chunk : ℤ) (sh : σ)
    (hN : 1 ≤ N) (hT₀ : 1 ≤ T₀)
    (hsetup : setupChunk N T₀ = (chunk, (T : ℤ))) :
    EngineInv (initSys N chunk T sh).queues (initSys N chunk T sh) [] := by
  apply engineInv_start
  · intro t; rfl
  · intro t; rfl
  · intro q
    have hs := setupChunk_spec N T₀ hN hT₀
    rw [hsetup] at hs
    have := initQueue_bounds N chunk (T : ℤ) hs.1 hs.2.1 (by
      have := hs.2.2; linarith) (q : ℤ) (by exact_mod_cast Nat.zero_le _)
      (by exact_mod_cast q.is_lt)
    simp only [initSys_queues]
    omega

/-- The initial queue assignment is well-formed. -/
theorem qinit_initSys {T : ℕ} {σ : Type} (N T₀ chunk : ℤ) (sh : σ)
    (hN : 1 ≤ N) (hT₀ : 1 ≤ T₀)
    (hsetup : setupChunk N T₀ = (chunk, (T : ℤ))) :
    QInit (initSys N chunk T sh).queues N := by
  intro q
  have hs := setupChunk_spec N T₀ hN hT₀
  rw [hsetup] at hs
  have := initQueue_bounds N chunk (T : ℤ) hs.1 hs.2.1 (by
    have := hs.2.2; linarith) (q : ℤ) (by exact_mod_cast Nat.zero_le _)
    (by exact_mod_cast q.is_lt)
  simp only [initSys_queues]
  exact ⟨this.1, le_of_lt this.2.1, this.2.2⟩

/-- In a completed batch every queue has been drained (`next = last`), the
claimed ranges exactly partition `[0, N)`, the claims all have positive
amounts with steals claiming full chunks, and the `completed` counters sum
to `N`. -/
theorem run_batch_spec {T : ℕ} {σ : Type} (N T₀ chunk : ℤ) (sh : σ)
    (hN : 1 ≤ N) (hT₀ : 1 ≤ T₀)
    (hsetup : setupChunk N T₀ = (chunk, (T : ℤ)))
    (sched : List (Fin T))
    (hdone : allDone (runSched (initSys N chunk T sh) sched).1) :
    totalClaimed (runSched (initSys N chunk T sh) sched).2 = Multiset.Ico 0 N ∧
    (∑ t : Fin T, (runSched (initSys N chunk T sh) sched).1.completed t) = N ∧
    (∀ c ∈ (runSched (initSys N chunk T sh) sched).2, 1 ≤ c.amt) ∧
    (∀ c ∈ (runSched (initSys N chunk T sh) sched).2,
      c.tid ≠ c.src → c.amt = GRANULARITY) := by
  have hs := setupChunk_spec N T₀ hN hT₀
  rw [hsetup] at hs
  have hinv0 := engineInv_initSys N T₀ chunk sh hN hT₀ hsetup
  have hinv := engineInv_run sched (initSys N chunk T sh) [] hinv0
  simp only [List.nil_append] at hinv
  set final := (runSched (initSys N chunk T sh) sched).1 with hfinal
  set cs := (runSched (initSys N chunk T sh) sched).2 with hcs
  have hdrained : ∀ q : Fin T, (final.queues q).next = (final.queues q).last := by
    intro q
    apply hinv.drained q
    rw [hdone q]
    intro hcon
    cases hcon
  refine ⟨?_, ?_, hinv.amt_pos, hinv.steal_amt⟩
  · rw [totalClaimed_eq_sum_claimedFrom]
    have hterm : ∀ q : Fin T, claimedFrom q cs =
        Multiset.Ico ((initSys N chunk T sh).queues q).next
          ((initSys N chunk T sh).queues q).last := by
      intro q
      rw [hinv.claims_eq q, hdrained q]
      exact Multiset.Ico_add_Ico_eq_Ico
        (by rw [← hdrained q]; exact hinv.mono_next q) (hinv.mono_last q)
    rw [Finset.sum_congr rfl (fun q _ => hterm q)]
    simpa only [initSys_queues] using
      initQueue_partition N chunk (T : ℤ) T rfl hs.1 hs.2.1 (by
        have := hs.2.2; linarith)
  · have h1 : ∀ t : Fin T, final.completed t = amtBy t cs := hinv.compl_eq
    have h2 : ∑ t : Fin T, final.completed t = ∑ t : Fin T, amtBy t cs :=
      Finset.sum_congr rfl (fun t _ => h1 t)
    rw [h2, sum_amtBy, ← sum_amtFrom]
    have h3 : ∀ q : Fin T, amtFrom q cs =
        ((initSys N chunk T sh).queues q).last -
          ((initSys N chunk T sh).queues q).next := by
      intro q
      rw [hinv.amt_from_eq q, hdrained q]
      ring
    rw [Finset.sum_congr rfl (fun q _ => h3 q)]
    simpa only [initSys_queues] using
      initQueue_length_sum N chunk (T : ℤ) T rfl hs.1 hs.2.1 (by
        have := hs.2.2; linarith)

/-! ### Monotonicity along runs -/

/-- Each atomic step only advances `next` and only retracts `last`, on every
queue. -/
theorem stepThread_mono {T : ℕ} {σ : Type} {init : Fin T → WorkQueue}
    {s : SysState T σ} {cs : List (WorkClaim T)} (h : EngineInv init s cs)
    (t u : Fin T) :
    (s.queues u).next ≤ ((stepThread s t).1.queues u).next ∧
    ((stepThread s t).1.queues u).last ≤ (s.queues u).last := by
  have hG := GRANULARITY_pos
  rcases hp : s.phase t with _ | ⟨flag, rest⟩ | _
  · have hord := h.order t
    rcases le_or_lt (s.queues t).last (s.queues t).next with hbr | hlt
    · rw [stepThread_drain_break hp hbr]
      rcases eq_or_ne u t with rfl | hne
      · simp only [setPhase_queues, setQueue_queues, Function.update_same]
        constructor <;> [omega; exact le_refl _]
      · simp [Function.update_noteq hne]
    · rw [stepThread_drain_claim hp hlt]
      rcases eq_or_ne u t with rfl | hne
      · simp only [setCompleted_queues, setQueue_queues, Function.update_same]
        constructor <;> [omega; exact le_refl _]
      · simp [Function.update_noteq hne]
  · rcases rest with _ | ⟨p, rest'⟩
    · rcases flag with _ | _
      · rw [stepThread_pass_done hp]; simp
      · rw [stepThread_pass_again hp]; simp
    · rcases le_or_lt (s.queues p).next ((s.queues p).last - GRANULARITY) with hcond | hcond
      · rw [stepThread_steal_hit hp hcond]
        rcases eq_or_ne u p with rfl | hne
        · simp only [setPhase_queues, setCompleted_queues, setQueue_queues,
            Function.update_same]
          constructor <;> [exact le_refl _; omega]
        · simp [Function.update_noteq hne]
      · rw [stepThread_steal_miss hp (by omega)]; simp
  · rw [stepThread_done hp]; simp

/-- Along any schedule, `next` is non-decreasing and `last` is
non-increasing. -/
theorem runSched_mono {T : ℕ} {σ : Type} {init : Fin T → WorkQueue} :
    ∀ (sched : List (Fin T)) (s : SysState T σ) (cs : List (WorkClaim T)),
      EngineInv init s cs → ∀ u : Fin T,
      (s.queues u).next ≤ ((runSched s sched).1.queues u).next ∧
      ((runSched s sched).1.queues u).last ≤ (s.queues u).last := by
  intro sched
  induction sched with
  | nil => intro s cs h u; simp [runSched]
  | cons t ts ih =>
    intro s cs h u
    have h1 := stepThread_mono h t u
    have h2 := ih (stepThread s t).1 (cs ++ ((stepThread s t).2).toList)
      (engineInv_step h t) u
    simp only [runSched]
    constructor
    · exact le_trans h1.1 h2.1
    · exact le_trans h2.2 h1.2

/-- Reachable states keep every queue inside `[0, N]`, in order. -/
theorem engineInv_bounds {T : ℕ} {σ : Type} {init : Fin T → WorkQueue}
    {s : SysState T σ} {cs : List (WorkClaim T)} (h : EngineInv init s cs)
    {N : ℤ} (hq : QInit init N) (u : Fin T) :
    0 ≤ (s.queues u).next ∧ (s.queues u).next ≤ (s.queues u).last ∧
    (s.queues u).last ≤ N := by
  refine ⟨le_trans (hq u).1 (h.mono_next u), h.order u,
    le_trans (h.mono_last u) (hq u).2.2⟩

/-- Splitting a run at any point. -/
theorem runSched_append {T : ℕ} {σ : Type} :
    ∀ (a b : List (Fin T)) (s : SysState T σ),
      runSched s (a ++ b) =
        ((runSched (runSched s a).1 b).1,
          (runSched s a).2 ++ (runSched (runSched s a).1 b).2) := by
  intro a
  induction a with
  | nil => intro b s; simp [runSched]
  | cons t ts ih =>
    intro b s
    simp only [List.cons_append, runSched, List.append_eq]
    rw [ih]
    simp [List.append_assoc]

/-! ### Termination measure -/

theorem peers_length (T : ℕ) (t : Fin T) : (peers T t).length = T - 1 := by
  have h1 : peers T t = (List.finRange T).erase t := by
    unfold peers
    rw [(List.nodup_finRange T).erase_eq_filter]
  rw [h1]
  have := List.length_erase_add_one (List.mem_finRange t)
  rw [List.length_finRange] at this
  omega

theorem phaseWF_step {T : ℕ} {σ : Type} {s : SysState T σ} (h : PhaseWF s)
    (t : Fin T) : PhaseWF (stepThread s t).1 := by
  rcases hp : s.phase t with _ | ⟨flag, rest⟩ | _
  · rcases le_or_lt (s.queues t).last (s.queues t).next with hbr | hlt
    · rw [stepThread_drain_break hp hbr]
      intro u fl r hu
      simp only [setPhase_phase, setQueue_phase, Function.update_apply] at hu
      by_cases he : u = t
      · rw [if_pos he] at hu
        cases hu
        have := peers_length T t
        omega
      · rw [if_neg he] at hu
        exact h u fl r hu
    · rw [stepThread_drain_claim hp hlt]
      intro u fl r hu
      simp only [setCompleted_phase, setQueue_phase] at hu
      exact h u fl r hu
  · rcases rest with _ | ⟨p, rest'⟩
    · rcases flag with _ | _
      · rw [stepThread_pass_done hp]
        intro u fl r hu
        simp only [setPhase_phase, Function.update_apply] at hu
        by_cases he : u = t
        · rw [if_pos he] at hu; cases hu
        · rw [if_neg he] at hu; exact h u fl r hu
      · rw [stepThread_pass_again hp]
        intro u fl r hu
        simp only [setPhase_phase, Function.update_apply] at hu
        by_cases he : u = t
        · rw [if_pos he] at hu
          cases hu
          have := peers_length T t
          omega
        · rw [if_neg he] at hu; exact h u fl r hu
    · rcases le_or_lt (s.queues p).next ((s.queues p).last - GRANULARITY) with hcond | hcond
      · rw [stepThread_steal_hit hp hcond]
        intro u fl r hu
        simp only [setPhase_phase, setCompleted_phase, setQueue_phase,
          Function.update_apply] at hu
        by_cases he : u = t
        · rw [if_pos he] at hu
          cases hu
          have := h t flag (p :: rest') hp
          simp at this
          omega
        · rw [if_neg he] at hu; exact h u fl r hu
      · rw [stepThread_steal_miss hp (by omega)]
        intro u fl r hu
        simp only [setPhase_phase, Function.update_apply] at hu
        by_cases he : u = t
        · rw [if_pos he] at hu
          cases hu
          have := h t flag (p :: rest') hp
          simp at this
          omega
        · rw [if_neg he] at hu; exact h u fl r hu
  · rw [stepThread_done hp]
    exact h

/-- Summation over a pointwise-updated function, split form. -/
theorem sum_comp_update {T : ℕ} {α : Type} (m : α → ℕ) (f : Fin T → α)
    (t : Fin T) (a : α) :
    ∑ u : Fin T, m (Function.update f t a u)
      = m a + ∑ u ∈ Finset.univ \ {t}, m (f u) := by
  have hfun : (fun u : Fin T => m (Function.update f t a u))
      = Function.update (fun u => m (f u)) t (m a) := by
    funext u
    rcases eq_or_ne u t with rfl | hne
    · simp
    · simp [Function.update_noteq hne]
  rw [show (∑ u : Fin T, m (Function.update f t a u))
      = ∑ u : Fin T, (fun u => m (Function.update f t a u)) u from rfl]
  rw [hfun]
  exact Finset.sum_update_of_mem (Finset.mem_univ t) _ _

theorem sum_comp_split {T : ℕ} {α : Type} (m : α → ℕ) (f : Fin T → α)
    (t : Fin T) :
    ∑ u : Fin T, m (f u) = m (f t) + ∑ u ∈ Finset.univ \ {t}, m (f u) := by
  rw [Finset.sdiff_singleton_eq_erase]
  exact (Finset.add_sum_erase _ _ (Finset.mem_univ t)).symm

/-- A step that only changes a control position to one of smaller budget
decreases the measure. -/
theorem sysMeasure_phase_lt {T : ℕ} {σ : Type} (s : SysState T σ) (t : Fin T)
    (ph : WorkerPhase T) (hph : phaseMeasure ph < phaseMeasure (s.phase t)) :
    sysMeasure (setPhase s t ph) < sysMeasure s := by
  unfold sysMeasure workLeft phaseSum
  simp only [setPhase_queues, setPhase_phase]
  apply Nat.add_lt_add_left
  rw [sum_comp_update phaseMeasure s.phase t,
    sum_comp_split phaseMeasure s.phase t]
  omega

/-- A drain-break step: the queue value is untouched (`AMT = 0`) and the
control budget shrinks. -/
theorem sysMeasure_break_lt {T : ℕ} {σ : Type} (s : SysState T σ) (t : Fin T)
    (Q : WorkQueue) (ph : WorkerPhase T)
    (hgap : queueGap Q = queueGap (s.queues t))
    (hph : phaseMeasure ph < phaseMeasure (s.phase t)) :
    sysMeasure (setPhase (setQueue s t Q) t ph) < sysMeasure s := by
  unfold sysMeasure workLeft phaseSum
  simp only [setPhase_queues, setQueue_queues, setPhase_phase, setQueue_phase]
  rw [sum_comp_update queueGap s.queues t, sum_comp_split queueGap s.queues t,
    hgap]
  apply Nat.add_lt_add_left
  rw [sum_comp_update phaseMeasure s.phase t,
    sum_comp_split phaseMeasure s.phase t]
  omega

/-- A claiming drain step removes at least one work item. -/
theorem sysMeasure_claim_lt {T : ℕ} {σ : Type} (s : SysState T σ) (t : Fin T)
    (Q : WorkQueue) (v : ℤ)
    (hgap : queueGap Q < queueGap (s.queues t)) :
    sysMeasure (setCompleted (setQueue s t Q) t v) < sysMeasure s := by
  unfold sysMeasure workLeft phaseSum
  simp only [setCompleted_queues, setQueue_queues, setCompleted_phase,
    setQueue_phase]
  apply Nat.add_lt_add_right
  apply mul_lt_mul_of_pos_left _ (show 0 < T + 2 by omega)
  rw [sum_comp_update queueGap s.queues t, sum_comp_split queueGap s.queues t]
  omega

/-- A successful steal removes a full `GRANULARITY` chunk, which pays for the
at most one extra steal pass it can cause. -/
theorem sysMeasure_steal_lt {T : ℕ} {σ : Type} (s : SysState T σ) (t p : Fin T)
    (Q : WorkQueue) (ph : WorkerPhase T) (v : ℤ)
    (hgap : queueGap Q + 256 ≤ queueGap (s.queues p))
    (hph : phaseMeasure ph < 256 * T + 512 + phaseMeasure (s.phase t)) :
    sysMeasure (setPhase (setCompleted (setQueue s p Q) t v) t ph) < sysMeasure s := by
  unfold sysMeasure workLeft phaseSum
  simp only [setPhase_queues, setCompleted_queues, setQueue_queues,
    setPhase_phase, setCompleted_phase, setQueue_phase]
  rw [sum_comp_update queueGap s.queues p, sum_comp_split queueGap s.queues p,
    sum_comp_update phaseMeasure s.phase t,
    sum_comp_split phaseMeasure s.phase t]
  have h1 : (T + 2) * (queueGap Q + ∑ u ∈ Finset.univ \ {p}, queueGap (s.queues u))
      + (T + 2) * 256
      ≤ (T + 2) * (queueGap (s.queues p) + ∑ u ∈ Finset.univ \ {p}, queueGap (s.queues u)) := by
    rw [← Nat.mul_add]
    exact Nat.mul_le_mul_left _ (by omega)
  have h2 : (T + 2) * 256 = 256 * T + 512 := by ring
  rw [h2] at h1
  set X := (T + 2) * (queueGap Q + ∑ u ∈ Finset.univ \ {p}, queueGap (s.queues u)) with hX
  set Y := (T + 2) * (queueGap (s.queues p) + ∑ u ∈ Finset.univ \ {p}, queueGap (s.queues u)) with hY
  clear_value X Y
  omega

/-- Every step of a not-yet-finished worker strictly decreases the global
measure. -/
theorem sysMeasure_decreases {T : ℕ} {σ : Type} {init : Fin T → WorkQueue}
    {s : SysState T σ} {cs : List (WorkClaim T)}
    (h : EngineInv init s cs) (hwf : PhaseWF s) {t : Fin T}
    (hne : s.phase t ≠ WorkerPhase.done) :
    sysMeasure (stepThread s t).1 < sysMeasure s := by
  have hG := GRANULARITY_pos
  have hT1 : 1 ≤ T := by have := t.is_lt; omega
  rcases hp : s.phase t with _ | ⟨flag, rest⟩ | _
  · have hord := h.order t
    rcases le_or_lt (s.queues t).last (s.queues t).next with hbr | hlt
    · rw [stepThread_drain_break hp hbr]
      apply sysMeasure_break_lt
      · show ((s.queues t).last - ((s.queues t).next +
          min GRANULARITY ((s.queues t).last - (s.queues t).next))).toNat
          = ((s.queues t).last - (s.queues t).next).toNat
        omega
      · rw [hp]
        have h1 : phaseMeasure (WorkerPhase.steal false (peers T t))
            = T := by
          simp only [phaseMeasure, peers_length]
          omega
        rw [h1]
        simp only [phaseMeasure]
        omega
    · rw [stepThread_drain_claim hp hlt]
      apply sysMeasure_claim_lt
      show ((s.queues t).last - ((s.queues t).next +
        min GRANULARITY ((s.queues t).last - (s.queues t).next))).toNat
        < ((s.queues t).last - (s.queues t).next).toNat
      omega
  · rcases rest with _ | ⟨p, rest'⟩
    · rcases flag with _ | _
      · rw [stepThread_pass_done hp]
        apply sysMeasure_phase_lt
        rw [hp]
        simp only [phaseMeasure]
        omega
      · rw [stepThread_pass_again hp]
        apply sysMeasure_phase_lt
        rw [hp]
        have h1 : phaseMeasure (WorkerPhase.steal false (peers T t))
            = T := by
          simp only [phaseMeasure, peers_length]
          omega
        rw [h1]
        simp only [phaseMeasure, List.length_nil]
        omega
    · have hrest : rest'.length + 1 ≤ T := by
        have := hwf t flag (p :: rest') hp
        simpa using this
      rcases le_or_lt (s.queues p).next ((s.queues p).last - GRANULARITY) with hcond | hcond
      · rw [stepThread_steal_hit hp hcond]
        have hordp := h.order p
        apply sysMeasure_steal_lt
        · show ((s.queues p).last - GRANULARITY - (s.queues p).next).toNat + 256
            ≤ ((s.queues p).last - (s.queues p).next).toNat
          simp only [GRANULARITY] at hcond ⊢
          omega
        · rw [hp]
          rcases flag with _ | _ <;>
            · simp only [phaseMeasure, List.length_cons]
              omega
      · rw [stepThread_steal_miss hp (by omega)]
        apply sysMeasure_phase_lt
        rw [hp]
        rcases flag with _ | _ <;>
          · simp only [phaseMeasure, List.length_cons]
            omega
  · exact absurd hp hne

/-- Any valid schedule is no longer than the measure of its starting state:
the engine terminates. -/
theorem validSched_length {T : ℕ} {σ : Type} {init : Fin T → WorkQueue} :
    ∀ (sched : List (Fin T)) (s : SysState T σ) (cs : List (WorkClaim T)),
      EngineInv init s cs → PhaseWF s → validSched s sched = true →
      sched.length ≤ sysMeasure s := by
  intro sched
  induction sched with
  | nil => intro s cs h hwf hv; simp
  | cons t ts ih =>
    intro s cs h hwf hv
    simp only [validSched, Bool.and_eq_true, bne_iff_ne, ne_eq] at hv
    have hdec := sysMeasure_decreases h hwf hv.1
    have hnext := ih (stepThread s t).1 (cs ++ ((stepThread s t).2).toList)
      (engineInv_step h t) (phaseWF_step hwf t) hv.2
    simp only [List.length_cons]
    omega

theorem phaseWF_initSys {T : ℕ} {σ : Type} (N chunk : ℤ) (sh : σ) :
    PhaseWF (initSys N chunk T sh) := by
  intro t flag rest hcon
  cases hcon

/-- The measure of the dispatched state. -/
theorem sysMeasure_initSys {T : ℕ} {σ : Type} (N T₀ chunk : ℤ) (sh : σ)
    (hN : 1 ≤ N) (hT₀ : 1 ≤ T₀)
    (hsetup : setupChunk N T₀ = (chunk, (T : ℤ))) :
    sysMeasure (initSys N chunk T sh)
      = (T + 2) * N.toNat + T * (T + 2) := by
  have hs := setupChunk_spec N T₀ hN hT₀
  rw [hsetup] at hs
  have hle : (T : ℤ) * chunk ≤ N := hs.2.2
  unfold sysMeasure workLeft phaseSum
  have hphase : ∑ t : Fin T, phaseMeasure ((initSys N chunk T sh).phase t)
      = T * (T + 2) := by
    simp [initSys_phase, phaseMeasure, Finset.sum_const, Finset.card_univ,
      mul_comm]
  rw [hphase]
  have hterm : ∀ i : Fin T, ((queueGap (initQueue N chunk (T : ℤ) (i : ℤ))) : ℤ)
      = (initQueue N chunk (T : ℤ) (i : ℤ)).last -
        (initQueue N chunk (T : ℤ) (i : ℤ)).next := by
    intro i
    unfold queueGap
    rw [Int.toNat_of_nonneg]
    have := initQueue_bounds N chunk (T : ℤ) hs.1 hs.2.1 hle (i : ℤ)
      (by exact_mod_cast Nat.zero_le _) (by exact_mod_cast i.is_lt)
    omega
  have hsum := initQueue_length_sum N chunk (T : ℤ) T rfl hs.1 hs.2.1 hle
  have hz : ((∑ i : Fin T, queueGap ((initSys N chunk T sh).queues i)) : ℤ)
      = N := by
    push_cast
    simp only [initSys_queues]
    rw [Finset.sum_congr rfl (fun i _ => hterm i)]
    exact hsum
  have hW : (∑ q : Fin T, queueGap ((initSys N chunk T sh).queues q))
      = N.toNat := by
    have hz2 : (((∑ q : Fin T, queueGap ((initSys N chunk T sh).queues q)) : ℕ) : ℤ)
        = N := by
      rw [Nat.cast_sum]
      exact hz
    have h2 := congrArg Int.toNat hz2
    rw [Int.toNat_natCast] at h2
    exact h2
  rw [hW]

/-- Bound for the whole batch: any valid schedule from dispatch has length at
most `(T + 2) * (N + T)`. -/
theorem run_length_bound {T : ℕ} {σ : Type} (N T₀ chunk : ℤ) (sh : σ)
    (hN : 1 ≤ N) (hT₀ : 1 ≤ T₀)
    (hsetup : setupChunk N T₀ = (chunk, (T : ℤ)))
    (sched : List (Fin T))
    (hv : validSched (initSys N chunk T sh) sched = true) :
    sched.length ≤ (T + 2) * (N.toNat + T) := by
  have h1 := validSched_length sched (initSys N chunk T sh) []
    (engineInv_initSys N T₀ chunk sh hN hT₀ hsetup)
    (phaseWF_initSys N chunk sh) hv
  rw [sysMeasure_initSys N T₀ chunk sh hN hT₀ hsetup] at h1
  have : (T + 2) * (N.toNat + T) = (T + 2) * N.toNat + T * (T + 2) := by ring
  omega

/-! ### Degenerate batches: no queue ever reaches steal granularity -/

theorem smallSpread_step {T : ℕ} {σ : Type} {init : Fin T → WorkQueue}
    {s : SysState T σ} {cs : List (WorkClaim T)} (h : EngineInv init s cs)
    (hs : SmallSpread s) (t : Fin T) :
    SmallSpread (stepThread s t).1 ∧
    (∀ c ∈ ((stepThread s t).2).toList, c.tid = c.src) := by
  have hG := GRANULARITY_pos
  rcases hp : s.phase t with _ | ⟨flag, rest⟩ | _
  · have hord := h.order t
    rcases le_or_lt (s.queues t).last (s.queues t).next with hbr | hlt
    · rw [stepThread_drain_break hp hbr]
      refine ⟨?_, by simp⟩
      intro u
      rcases eq_or_ne u t with rfl | hne
      · simp only [setPhase_queues, setQueue_queues, Function.update_same]
        have := hs u
        show (s.queues u).last - ((s.queues u).next +
          min GRANULARITY ((s.queues u).last - (s.queues u).next)) < GRANULARITY
        omega
      · simpa [Function.update_noteq hne] using hs u
    · rw [stepThread_drain_claim hp hlt]
      refine ⟨?_, by simp⟩
      intro u
      rcases eq_or_ne u t with rfl | hne
      · simp only [setCompleted_queues, setQueue_queues, Function.update_same]
        have := hs u
        show (s.queues u).last - ((s.queues u).next +
          min GRANULARITY ((s.queues u).last - (s.queues u).next)) < GRANULARITY
        omega
      · simpa [Function.update_noteq hne] using hs u
  · rcases rest with _ | ⟨p, rest'⟩
    · rcases flag with _ | _
      · rw [stepThread_pass_done hp]
        exact ⟨hs, by simp⟩
      · rw [stepThread_pass_again hp]
        exact ⟨hs, by simp⟩
    · rcases le_or_lt (s.queues p).next ((s.queues p).last - GRANULARITY) with hcond | hcond
      · exact absurd hcond (by have := hs p; omega)
      · rw [stepThread_steal_miss hp (by omega)]
        exact ⟨hs, by simp⟩
  · rw [stepThread_done hp]
    exact ⟨hs, by simp⟩

theorem smallSpread_run {T : ℕ} {σ : Type} {init : Fin T → WorkQueue} :
    ∀ (sched : List (Fin T)) (s : SysState T σ) (cs : List (WorkClaim T)),
      EngineInv init s cs → SmallSpread s →
      SmallSpread (runSched s sched).1 ∧
      (∀ c ∈ (runSched s sched).2, c.tid = c.src) := by
  intro sched
  induction sched with
  | nil => intro s cs h hs; exact ⟨hs, by simp [runSched]⟩
  | cons t ts ih =>
    intro s cs h hs
    have h1 := smallSpread_step h hs t
    have h2 := ih (stepThread s t).1 (cs ++ ((stepThread s t).2).toList)
      (engineInv_step h t) h1.1
    refine ⟨h2.1, ?_⟩
    intro c hc
    simp only [runSched, List.mem_append] at hc
    rcases hc with hc | hc
    · exact h1.2 c hc
    · exact h2.2 c hc

/-- When every claim is an owner's claim, the per-thread total equals the
per-queue total. -/
theorem amtBy_eq_amtFrom {T : ℕ} (cs : List (WorkClaim T))
    (hall : ∀ c ∈ cs, c.tid = c.src) (t : Fin T) :
    amtBy t cs = amtFrom t cs := by
  induction cs with
  | nil => rfl
  | cons c cs ih =>
    have hc := hall c (by simp)
    simp only [amtBy, amtFrom, hc]
    rw [ih (fun c hc => hall c (by simp [hc]))]

/-! ### Exactness of the strided kernel loop -/

theorem do_work_eq_at {A : ℕ} {V : Type} (b : BatchDesc A V) (item : ℤ)
    (count : ℕ) (m : Mem V) : do_work b item count m = do_work_at b item count m := rfl

/-- One iteration of the inner loop: load every input at offset `s`, store
`f` of the loads at the output slot of offset `s`, advance all pointers. -/
theorem do_work_at_succ {A : ℕ} {V : Type} (b : BatchDesc A V) (s : ℤ)
    (count : ℕ) (m : Mem V) :
    do_work_at b s (count + 1) m =
      do_work_at b (s + 1) count
        (storeMem m (outAddr b s) (b.f (fun i => m (inAddr b i s)))) := by
  have hptr : (fun i : Fin (A + 1) => b.args i + s * b.steps i + b.steps i)
      = fun i : Fin (A + 1) => b.args i + (s + 1) * b.steps i := by
    funext i
    ring
  show do_work_loop b (fun i : Fin (A + 1) => b.args i + s * b.steps i + b.steps i)
      count (storeMem m (outAddr b s) (b.f (fun i => m (inAddr b i s))))
    = do_work_at b (s + 1) count
        (storeMem m (outAddr b s) (b.f (fun i => m (inAddr b i s))))
  rw [hptr]
  rfl

/-- Postcondition of one `_do_work` call over `[s, s + count)`: every output
slot in the range receives the kernel value of the pristine inputs, and no
other address changes. -/
theorem do_work_at_spec {A : ℕ} {V : Type} (b : BatchDesc A V) (N : ℤ)
    (m0 : Mem V) (hna : NoAlias b N) :
    ∀ (count : ℕ) (s : ℤ) (m : Mem V),
      0 ≤ s → s + count ≤ N →
      (∀ (i : Fin A) (k : ℤ), 0 ≤ k → k < N → m (inAddr b i k) = m0 (inAddr b i k)) →
      (∀ k : ℤ, s ≤ k → k < s + count →
        do_work_at b s count m (outAddr b k) = b.f (fun i => m0 (inAddr b i k))) ∧
      (∀ a : ℤ, (∀ k : ℤ, s ≤ k → k < s + count → a ≠ outAddr b k) →
        do_work_at b s count m a = m a) := by
  have hmem : ∀ x : ℤ, 0 ≤ x → x < N → x ∈ Finset.Ico (0 : ℤ) N :=
    fun x h1 h2 => Finset.mem_Ico.mpr ⟨h1, h2⟩
  intro count
  induction count with
  | zero =>
    intro s m h0 hsN hagree
    constructor
    · intro k hk1 hk2
      push_cast at hk2
      omega
    · intro a ha
      rfl
  | succ count ih =>
    intro s m h0 hsN hagree
    push_cast at hsN
    rw [do_work_at_succ]
    have hsN' : s < N := by omega
    have hm1agree : ∀ (i : Fin A) (k : ℤ), 0 ≤ k → k < N →
        storeMem m (outAddr b s) (b.f (fun i => m (inAddr b i s))) (inAddr b i k)
          = m0 (inAddr b i k) := by
      intro i k hk1 hk2
      unfold storeMem
      rw [if_neg (hna.2 i k (hmem k hk1 hk2) s (hmem s h0 hsN'))]
      exact hagree i k hk1 hk2
    have IH := ih (s + 1)
      (storeMem m (outAddr b s) (b.f (fun i => m (inAddr b i s))))
      (by omega) (by push_cast; omega) hm1agree
    constructor
    · intro k hk1 hk2
      push_cast at hk2
      rcases eq_or_lt_of_le hk1 with heq | hlt
      · subst heq
        rw [IH.2 (outAddr b s)]
        · unfold storeMem
          rw [if_pos rfl]
          congr 1
          funext i
          exact hagree i s h0 hsN'
        · intro k' hk1' hk2'
          exact hna.1 s (hmem s h0 hsN') k' (hmem k' (by omega) (by omega))
            (by omega)
      · exact IH.1 k (by omega) (by push_cast; omega)
    · intro a ha
      rw [IH.2 a (fun k' h1 h2 => ha k' (by omega) (by push_cast at h2 ⊢; omega))]
      unfold storeMem
      rw [if_neg (ha s (le_refl s) (by push_cast; omega))]

/-- Folding `_do_work` over a claim list whose ranges sit inside `[0, N)` with
no index claimed twice: every claimed output slot receives the kernel value of
the pristine inputs; every other address is untouched. -/
theorem applyClaims_spec {T A : ℕ} {V : Type} (b : BatchDesc A V) (N : ℤ)
    (m0 : Mem V) (hna : NoAlias b N) :
    ∀ (cs : List (WorkClaim T)) (m : Mem V),
      (∀ c ∈ cs, 1 ≤ c.amt) →
      totalClaimed cs ≤ Multiset.Ico 0 N →
      (totalClaimed cs).Nodup →
      (∀ (i : Fin A) (k : ℤ), 0 ≤ k → k < N → m (inAddr b i k) = m0 (inAddr b i k)) →
      (∀ k : ℤ, k ∈ totalClaimed cs →
        applyClaims b cs m (outAddr b k) = b.f (fun i => m0 (inAddr b i k))) ∧
      (∀ a : ℤ, (∀ k ∈ totalClaimed cs, a ≠ outAddr b k) →
        applyClaims b cs m a = m a) := by
  have hmem : ∀ x : ℤ, x ∈ Multiset.Ico (0 : ℤ) N → 0 ≤ x ∧ x < N := by
    intro x hx
    simpa [Multiset.mem_Ico] using hx
  intro cs
  induction cs with
  | nil =>
    intro m hpos hle hnd hagree
    constructor
    · intro k hk
      simp [totalClaimed] at hk
    · intro a ha
      rfl
  | cons c cs ih =>
    intro m hpos hle hnd hagree
    simp only [totalClaimed] at hle hnd ⊢
    have hposc : 1 ≤ c.amt := hpos c (by simp)
    have hheadle : claimIco c ≤ Multiset.Ico 0 N :=
      le_trans (Multiset.le_add_right _ _) hle
    have htaille : totalClaimed cs ≤ Multiset.Ico 0 N :=
      le_trans (Multiset.le_add_left _ _) hle
    have hnd' := Multiset.nodup_add.mp hnd
    have hsub : ∀ x : ℤ, x ∈ claimIco c → 0 ≤ x ∧ x < N := by
      intro x hx
      exact hmem x (Multiset.mem_of_le hheadle hx)
    have hsubT : ∀ x : ℤ, x ∈ totalClaimed cs → 0 ≤ x ∧ x < N := by
      intro x hx
      exact hmem x (Multiset.mem_of_le htaille hx)
    have hitem0 : 0 ≤ c.item := by
      have := hsub c.item (by
        simp only [claimIco, Multiset.mem_Ico]
        omega)
      exact this.1
    have hitemN : c.item + c.amt ≤ N := by
      have := hsub (c.item + c.amt - 1) (by
        simp only [claimIco, Multiset.mem_Ico]
        omega)
      omega
    have hcast : c.item + (c.amt.toNat : ℤ) = c.item + c.amt := by omega
    have H1 := do_work_at_spec b N m0 hna c.amt.toNat c.item m hitem0
      (by omega) hagree
    simp only [applyClaims, do_work_eq_at]
    have hm1agree : ∀ (i : Fin A) (k : ℤ), 0 ≤ k → k < N →
        do_work_at b c.item c.amt.toNat m (inAddr b i k) = m0 (inAddr b i k) := by
      intro i k hk1 hk2
      rw [H1.2 (inAddr b i k) (fun k' h1 h2 =>
        hna.2 i k (Finset.mem_Ico.mpr ⟨hk1, hk2⟩) k'
          (Finset.mem_Ico.mpr ⟨by omega, by omega⟩))]
      exact hagree i k hk1 hk2
    have IH := ih (do_work_at b c.item c.amt.toNat m)
      (fun c hc => hpos c (by simp [hc])) htaille hnd'.2.1 hm1agree
    constructor
    · intro k hk
      rcases Multiset.mem_add.mp hk with hk | hk
    -- head claim: later claims never touch this output slot
      · have hkb : c.item ≤ k ∧ k < c.item + c.amt := by
          simpa [claimIco, Multiset.mem_Ico] using hk
        have hkN := hsub k hk
        rw [IH.2 (outAddr b k)]
        · exact H1.1 k hkb.1 (by omega)
        · intro k' hk'
          have hk'N := hsubT k' hk'
          have hkk' : k ≠ k' := by
            intro he
            exact (Multiset.disjoint_left.mp hnd'.2.2) hk (he ▸ hk')
          exact hna.1 k (Finset.mem_Ico.mpr ⟨hkN.1, hkN.2⟩) k'
            (Finset.mem_Ico.mpr ⟨hk'N.1, hk'N.2⟩) hkk'
      · exact IH.1 k hk
    · intro a ha
      rw [IH.2 a (fun k hk => ha k (Multiset.mem_add.mpr (Or.inr hk)))]
      exact H1.2 a (fun k h1 h2 => ha k (Multiset.mem_add.mpr (Or.inl (by
        simp only [claimIco, Multiset.mem_Ico]
        omega))))

/-! ### The claims -/

/-- C1.  Exactness: for every valid batch (pure elementwise kernel, in-range
non-aliasing strided layout), after the engine completes (all workers
returned), every output slot `args[A] + k * steps[A]` for `k ∈ [0, N)` holds
exactly `f` applied to the values at `args[i] + k * steps[i]` — the parallel
engine's strided output equals the sequential reference at every position. -/
theorem C1_exactness {T A : ℕ} {σ V : Type} (N T₀ chunk : ℤ) (sh : σ)
    (b : BatchDesc A V) (m0 : Mem V)
    (hN : 1 ≤ N) (hT₀ : 1 ≤ T₀)
    (hsetup : setupChunk N T₀ = (chunk, (T : ℤ)))
    (hna : NoAlias b N)
    (sched : List (Fin T))
    (hdone : allDone (runSched (initSys N chunk T sh) sched).1) :
    ∀ k : ℤ, 0 ≤ k → k < N →
      applyClaims b (runSched (initSys N chunk T sh) sched).2 m0 (outAddr b k)
        = b.f (fun i => m0 (inAddr b i k)) := by
  intro k hk1 hk2
  have hb := run_batch_spec N T₀ chunk sh hN hT₀ hsetup sched hdone
  have hspec := applyClaims_spec b N m0 hna
    (runSched (initSys N chunk T sh) sched).2 m0 hb.2.2.1
    (by rw [hb.1]) (by rw [hb.1]; exact Multiset.nodup_Ico)
    (fun i k h1 h2 => rfl)
  exact hspec.1 k (by rw [hb.1]; exact Multiset.mem_Ico.mpr ⟨hk1, hk2⟩)

/-- C2.  Partition and accounting: across a completed batch, the multiset of
claimed ranges (owner drains plus steals) exactly partitions `[0, N)` — each
index claimed exactly once — so the `completed` counters sum to `N` and the
dispatcher's post-join audit abort branch is never taken. -/
theorem C2_partition_accounting {T : ℕ} {σ : Type} (N T₀ chunk : ℤ) (sh : σ)
    (hN : 1 ≤ N) (hT₀ : 1 ≤ T₀)
    (hsetup : setupChunk N T₀ = (chunk, (T : ℤ)))
    (sched : List (Fin T))
    (hdone : allDone (runSched (initSys N chunk T sh) sched).1) :
    totalClaimed (runSched (initSys N chunk T sh) sched).2 = Multiset.Ico 0 N ∧
    (∀ k : ℤ, 0 ≤ k → k < N →
      (totalClaimed (runSched (initSys N chunk T sh) sched).2).count k = 1) ∧
    (∑ t : Fin T, (runSched (initSys N chunk T sh) sched).1.completed t) = N ∧
    ¬ raceAuditAborts (runSched (initSys N chunk T sh) sched).1 N := by
  have hb := run_batch_spec N T₀ chunk sh hN hT₀ hsetup sched hdone
  refine ⟨hb.1, ?_, hb.2.1, ?_⟩
  · intro k hk1 hk2
    rw [hb.1]
    exact Multiset.count_eq_one_of_mem Multiset.nodup_Ico
      (Multiset.mem_Ico.mpr ⟨hk1, hk2⟩)
  · intro hcon
    exact hcon hb.2.1

/-- C3.  Queue interval invariant and monotonicity: at every observable point
of a batch (after any schedule prefix), every queue satisfies
`0 ≤ next ≤ last ≤ N`; and along any continuation, `next` never decreases and
`last` never increases — both the owner's drain-pop and a peer's steal
preserve all of these. -/
theorem C3_queue_invariants {T : ℕ} {σ : Type} (N T₀ chunk : ℤ) (sh : σ)
    (hN : 1 ≤ N) (hT₀ : 1 ≤ T₀)
    (hsetup : setupChunk N T₀ = (chunk, (T : ℤ)))
    (sched₁ sched₂ : List (Fin T)) (q : Fin T) :
    (0 ≤ ((runSched (initSys N chunk T sh) sched₁).1.queues q).next ∧
     ((runSched (initSys N chunk T sh) sched₁).1.queues q).next ≤
       ((runSched (initSys N chunk T sh) sched₁).1.queues q).last ∧
     ((runSched (initSys N chunk T sh) sched₁).1.queues q).last ≤ N) ∧
    ((runSched (initSys N chunk T sh) sched₁).1.queues q).next ≤
      ((runSched (runSched (initSys N chunk T sh) sched₁).1 sched₂).1.queues q).next ∧
    ((runSched (runSched (initSys N chunk T sh) sched₁).1 sched₂).1.queues q).last ≤
      ((runSched (initSys N chunk T sh) sched₁).1.queues q).last := by
  have hinv0 := engineInv_initSys N T₀ chunk sh hN hT₀ hsetup
  have hinv1 := engineInv_run sched₁ (initSys N chunk T sh) [] hinv0
  simp only [List.nil_append] at hinv1
  have hbounds := engineInv_bounds hinv1
    (qinit_initSys N T₀ chunk sh hN hT₀ hsetup) q
  have hmono := runSched_mono sched₂ (runSched (initSys N chunk T sh) sched₁).1
    (runSched (initSys N chunk T sh) sched₁).2 hinv1 q
  exact ⟨hbounds, hmono.1, hmono.2⟩

/-- C4.  Steal-check semantics and sub-granularity lockout: a steal-check on
peer `p` claims work iff `p.next ≤ p.last - GRANULARITY` under the peer's
lock; on success it decrements `p.last` by exactly `GRANULARITY` and claims
exactly `[new last, old last)`; a queue with `0 < last - next < GRANULARITY`
is left untouched and yields no claim; and in any run from an invariant
state, every stolen range (claims with `tid ≠ src`) is a full `GRANULARITY`
chunk, so sub-granularity residuals are processed only by the owner's local
drain. -/
theorem C4_steal_semantics {T : ℕ} {σ : Type} (s : SysState T σ) (t p : Fin T)
    (flag : Bool) (rest : List (Fin T))
    (hp : s.phase t = WorkerPhase.steal flag (p :: rest)) :
    (((stepThread s t).2).isSome ↔
      (s.queues p).next ≤ (s.queues p).last - GRANULARITY) ∧
    ((s.queues p).next ≤ (s.queues p).last - GRANULARITY →
      ((stepThread s t).1.queues p).last = (s.queues p).last - GRANULARITY ∧
      ((stepThread s t).1.queues p).next = (s.queues p).next ∧
      (stepThread s t).2
        = some ⟨t, p, (s.queues p).last - GRANULARITY, GRANULARITY⟩) ∧
    (0 < (s.queues p).last - (s.queues p).next →
      (s.queues p).last - (s.queues p).next < GRANULARITY →
      (stepThread s t).2 = none ∧
      (stepThread s t).1.queues p = s.queues p) ∧
    (∀ (init : Fin T → WorkQueue) (s' : SysState T σ) (cs : List (WorkClaim T))
       (sched : List (Fin T)), EngineInv init s' cs →
       ∀ c ∈ (runSched s' sched).2, c.tid ≠ c.src → c.amt = GRANULARITY) := by
  refine ⟨?_, ?_, ?_, ?_⟩
  · rcases le_or_lt (s.queues p).next ((s.queues p).last - GRANULARITY) with hc | hc
    · rw [stepThread_steal_hit hp hc]
      simpa using hc
    · rw [stepThread_steal_miss hp (by omega)]
      simpa using by omega
  · intro hc
    rw [stepThread_steal_hit hp hc]
    simp
  · intro h1 h2
    rw [stepThread_steal_miss hp (by omega)]
    simp
  · intro init s' cs sched hinv c hc hne
    have h := engineInv_run sched s' cs hinv
    exact h.steal_amt c (List.mem_append.mpr (Or.inr hc)) hne

/-- C5.  Dispatcher queue initialization: with `ChunkSize = N / T` (reassigned
to `1` with `T` reassigned to `N` when zero), `_populate_workqueues` leaves
queue `i` with `next = i * ChunkSize`, `lock = 0`, and
`last = (i+1) * ChunkSize` except `last = N` for queue `T - 1` (the post-loop
overwrite), for any uninitialized array contents; for `N ≥ 1` the ranges are
nonempty and exactly partition `[0, N)`. -/
theorem C5_dispatcher_init (N T₀ : ℤ) (T : ℕ)
    (hN : 1 ≤ N) (hT₀ : 1 ≤ T₀)
    (hsetup : setupChunk N T₀ = ((setupChunk N T₀).1, (T : ℤ))) :
    (∀ (arr : ℤ → WorkQueue) (i : ℤ), 0 ≤ i → i < (T : ℤ) →
      (populate_workqueues N (setupChunk N T₀).1 (T : ℤ) arr i).next
          = i * (setupChunk N T₀).1 ∧
      (populate_workqueues N (setupChunk N T₀).1 (T : ℤ) arr i).last
          = (if i = (T : ℤ) - 1 then N else (i + 1) * (setupChunk N T₀).1) ∧
      (populate_workqueues N (setupChunk N T₀).1 (T : ℤ) arr i).lock = 0) ∧
    (∀ (arr : ℤ → WorkQueue) (i : ℤ), 0 ≤ i → i < (T : ℤ) →
      (populate_workqueues N (setupChunk N T₀).1 (T : ℤ) arr i).next
        < (populate_workqueues N (setupChunk N T₀).1 (T : ℤ) arr i).last) ∧
    (∑ i : Fin T, Multiset.Ico
        ((initQueue N (setupChunk N T₀).1 (T : ℤ) (i : ℤ)).next)
        ((initQueue N (setupChunk N T₀).1 (T : ℤ) (i : ℤ)).last)
      = Multiset.Ico 0 N) := by
  have hs := setupChunk_spec N T₀ hN hT₀
  rw [hsetup] at hs
  have hchunk : 1 ≤ (setupChunk N T₀).1 := by
    have := hs.1
    rw [hsetup]
    exact this
  have hT1 : 1 ≤ (T : ℤ) := hs.2.1
  have hle : (T : ℤ) * (setupChunk N T₀).1 ≤ N := by
    have := hs.2.2
    rw [hsetup] at this ⊢
    exact this
  refine ⟨?_, ?_, ?_⟩
  · intro arr i h0 hi
    rw [populate_workqueues_spec N (setupChunk N T₀).1 (T : ℤ) arr hT1 i h0 hi]
    unfold initQueue
    split_ifs <;> exact ⟨rfl, rfl, rfl⟩
  · intro arr i h0 hi
    rw [populate_workqueues_spec N (setupChunk N T₀).1 (T : ℤ) arr hT1 i h0 hi]
    exact (initQueue_bounds N (setupChunk N T₀).1 (T : ℤ) hchunk hT1 hle i h0 hi).2.1
  · exact initQueue_partition N (setupChunk N T₀).1 (T : ℤ) T rfl hchunk hT1 hle

/-- C6.  Worker termination: every valid schedule of worker steps (drain
iterations, steal checks, pass bookkeeping) from the dispatched state has
length at most `(T + 2) * (N + T)` — every worker's routine terminates, each
claiming iteration removing work from a finite never-increasing total and
each clean steal pass ending the steal loop. -/
theorem C6_termination {T : ℕ} {σ : Type} (N T₀ chunk : ℤ) (sh : σ)
    (hN : 1 ≤ N) (hT₀ : 1 ≤ T₀)
    (hsetup : setupChunk N T₀ = (chunk, (T : ℤ)))
    (sched : List (Fin T))
    (hv : validSched (initSys N chunk T sh) sched = true) :
    sched.length ≤ (T + 2) * (N.toNat + T) :=
  run_length_bound N T₀ chunk sh hN hT₀ hsetup sched hv

/-- C7.  Degenerate batch `N = 0` (code bug): `ChunkSize = 0/T = 0`, so the
dispatcher reassigns `num_thread = N = 0` *before* allocating the
`num_thread`-sized workqueue array, spawns no worker (no kernel invocation,
output untouched, `Σ completed = 0`) — but `_populate_workqueues` still
performs the post-loop overwrite `workqueues[num_thread - 1].last = N`, i.e.
writes index `-1` of a zero-length array: an out-of-bounds access, refuting
the claim that every setup step stays in bounds. -/
theorem C7_zero_batch_oob :
    setupChunk 0 4 = (1, 0) ∧
    spawnCount 0 4 = 0 ∧
    lastOverwriteIndex 0 4 = -1 ∧
    ¬ (0 ≤ lastOverwriteIndex 0 4 ∧ lastOverwriteIndex 0 4 < spawnCount 0 4) ∧
    (∀ (arr : ℤ → WorkQueue),
      populate_workqueues 0 1 0 arr (-1) = { arr (-1) with last := 0 }) ∧
    (∀ sched : List (Fin 0),
      (runSched (initSys 0 1 0 ()) sched).2 = [] ∧
      (∑ t : Fin 0, (runSched (initSys 0 1 0 ()) sched).1.completed t) = 0) ∧
    (∀ (A : ℕ) (V : Type) (b : BatchDesc A V) (m : Mem V)
       (sched : List (Fin 0)),
      applyClaims b ((runSched (initSys 0 1 0 ()) sched).2) m = m) := by
  have hnil : ∀ sched : List (Fin 0), (runSched (initSys 0 1 0 ()) sched).2 = [] := by
    intro sched
    cases sched with
    | nil => rfl
    | cons t ts => exact Fin.elim0 t
  refine ⟨by decide, by decide, by decide, by decide, ?_, ?_, ?_⟩
  · intro arr
    unfold populate_workqueues popLoop
    simp
  · intro sched
    cases sched with
    | nil => exact ⟨rfl, rfl⟩
    | cons t ts => exact Fin.elim0 t
  · intro A V b m sched
    rw [hnil sched]
    rfl

/-- C8.  Lock-protocol safety: the `Lock` CAS observes prior value 0 exactly
when it succeeds (leaving the word 1, so the spin loop exits only after a
successful 0→1 CAS); the `Unlock` CAS aborts via the unreachable trap exactly
when the observed prior value is not 1; and under the engine's discipline —
an Unlock follows the same thread's successful Lock, with only failed CAS
attempts by contenders in between — the abort branch is never taken. -/
theorem C8_lock_protocol :
    (∀ l : ℤ, (lockTry l).2 = 0 ↔ (l = 0 ∧ (lockTry l).1 = 1)) ∧
    (∀ l : ℤ, l ≠ 0 → lockTry l = (l, l)) ∧
    (∀ l : ℤ, unlockCAS l = none ↔ l ≠ 1) ∧
    (∀ n : ℕ, unlockCAS ((fun w => (lockTry w).1)^[n] ((lockTry 0).1)) = some 0) := by
  have hone : ∀ n : ℕ, ((fun w => (lockTry w).1)^[n] ((lockTry 0).1)) = 1 := by
    intro n
    induction n with
    | zero => simp [lockTry]
    | succ n ih =>
      rw [Function.iterate_succ_apply', ih]
      norm_num [lockTry]
  refine ⟨?_, ?_, ?_, ?_⟩
  · intro l
    unfold lockTry
    by_cases h : l = 0 <;> simp [h]
  · intro l h
    unfold lockTry
    rw [if_neg h]
  · intro l
    unfold unlockCAS
    by_cases h : l = 1 <;> simp [h]
  · intro n
    rw [hone n]
    rfl

/-- C9 counterexample: for `N = 1`, `T = 4` the dispatcher spawns only
`num_thread = N = 1` worker — the claimed "remaining T − N threads" (which
would require 4 spawned threads performing local-drain) never run. -/
theorem C9_spawn_counterexample :
    spawnCount 1 4 = 1 ∧ spawnCount 1 4 ≠ 4 := by
  constructor <;> decide

/-- C9 (amended).  Degenerate batch `0 < N < T`: the dispatcher reassigns
`ChunkSize = 1` and `num_thread = N`, spawns exactly `N` workers, and in any
completed run each of those `N` workers processes exactly one element
(`completed = 1`); no steal ever succeeds, and the remaining `T − N` workers
are never spawned. -/
theorem C9_degenerate_small_N {T : ℕ} {σ : Type} (N T₀ : ℤ) (sh : σ)
    (hN : 1 ≤ N) (hNT : N < T₀) (hTN : (T : ℤ) = N)
    (sched : List (Fin T))
    (hdone : allDone (runSched (initSys N 1 T sh) sched).1) :
    setupChunk N T₀ = (1, N) ∧ spawnCount N T₀ = N ∧
    (∀ t : Fin T, (runSched (initSys N 1 T sh) sched).1.completed t = 1) := by
  have hdeg : setupChunk N T₀ = (1, N) := setupChunk_degenerate N T₀ (by omega) hNT
  have hT₀1 : 1 ≤ T₀ := by omega
  have hsetup : setupChunk N T₀ = (1, (T : ℤ)) := by rw [hdeg, hTN]
  refine ⟨hdeg, by unfold spawnCount; rw [hdeg], ?_⟩
  have hG := GRANULARITY_pos
  have hspread : ∀ q : Fin T,
      ((initSys N 1 T sh).queues q).last - ((initSys N 1 T sh).queues q).next
        = 1 := by
    intro q
    simp only [initSys_queues]
    unfold initQueue
    have hq := q.is_lt
    split_ifs with h
    · rw [h, hTN]
      ring
    · ring
  have hinv0 := engineInv_initSys N T₀ 1 sh hN hT₀1 hsetup
  have hsmall0 : SmallSpread (initSys N 1 T sh) := by
    intro q
    rw [hspread q]
    simp [GRANULARITY]
  have hrun := smallSpread_run sched (initSys N 1 T sh) [] hinv0 hsmall0
  have hinv := engineInv_run sched (initSys N 1 T sh) [] hinv0
  simp only [List.nil_append] at hinv
  intro t
  have hdrained : ((runSched (initSys N 1 T sh) sched).1.queues t).next
      = ((runSched (initSys N 1 T sh) sched).1.queues t).last := by
    apply hinv.drained t
    rw [hdone t]
    intro hcon
    cases hcon
  have h1 := hinv.compl_eq t
  have h2 := amtBy_eq_amtFrom (runSched (initSys N 1 T sh) sched).2 hrun.2 t
  have h3 := hinv.amt_from_eq t
  have h4 := hspread t
  rw [h1, h2, h3]
  omega

/-- C10.  Frame property of worker operations: a local-drain iteration
mutates nothing but its own queue's `next` (its `last` and `lock` and every
other queue are untouched) plus its own `completed` and control position; a
steal-check mutates nothing but the peer queue's `last` (never the peer's
`next` or `lock`, nor any other queue) plus the stealer's `completed` and
control position; no worker operation touches the shared context
(args/dimensions/steps/data/num_thread) or another thread's counters. -/
theorem C10_frame {T : ℕ} {σ : Type} (s : SysState T σ) (t : Fin T) :
    (s.phase t = WorkerPhase.drain →
      ((stepThread s t).1.shared = s.shared ∧
       (∀ q : Fin T, q ≠ t → (stepThread s t).1.queues q = s.queues q) ∧
       ((stepThread s t).1.queues t).last = (s.queues t).last ∧
       ((stepThread s t).1.queues t).lock = (s.queues t).lock ∧
       (∀ u : Fin T, u ≠ t → (stepThread s t).1.completed u = s.completed u) ∧
       (∀ u : Fin T, u ≠ t → (stepThread s t).1.phase u = s.phase u))) ∧
    (∀ (flag : Bool) (p : Fin T) (rest : List (Fin T)),
      s.phase t = WorkerPhase.steal flag (p :: rest) →
      ((stepThread s t).1.shared = s.shared ∧
       (∀ q : Fin T, q ≠ p → (stepThread s t).1.queues q = s.queues q) ∧
       ((stepThread s t).1.queues p).next = (s.queues p).next ∧
       ((stepThread s t).1.queues p).lock = (s.queues p).lock ∧
       (∀ u : Fin T, u ≠ t → (stepThread s t).1.completed u = s.completed u) ∧
       (∀ u : Fin T, u ≠ t → (stepThread s t).1.phase u = s.phase u))) := by
  constructor
  · intro hp
    rcases le_or_lt (s.queues t).last (s.queues t).next with hbr | hlt
    · rw [stepThread_drain_break hp hbr]
      refine ⟨rfl, ?_, ?_, ?_, ?_, ?_⟩
      · intro q hq
        simp [Function.update_noteq hq]
      · simp [Function.update_same]
      · simp [Function.update_same]
      · intro u hu
        rfl
      · intro u hu
        simp [Function.update_noteq hu]
    · rw [stepThread_drain_claim hp hlt]
      refine ⟨rfl, ?_, ?_, ?_, ?_, ?_⟩
      · intro q hq
        simp [Function.update_noteq hq]
      · simp [Function.update_same]
      · simp [Function.update_same]
      · intro u hu
        simp [Function.update_noteq hu]
      · intro u hu
        rfl
  · intro flag p rest hp
    rcases le_or_lt (s.queues p).next ((s.queues p).last - GRANULARITY) with hc | hc
    · rw [stepThread_steal_hit hp hc]
      refine ⟨rfl, ?_, ?_, ?_, ?_, ?_⟩
      · intro q hq
        simp [Function.update_noteq hq]
      · simp [Function.update_same]
      · simp [Function.update_same]
      · intro u hu
        simp [Function.update_noteq hu]
      · intro u hu
        simp [Function.update_noteq hu]
    · rw [stepThread_steal_miss hp (by omega)]
      refine ⟨rfl, ?_, rfl, rfl, ?_, ?_⟩
      · intro q hq
        rfl
      · intro u hu
        rfl
      · intro u hu
        simp [Function.update_noteq hu]

/-! ### Concrete instances exercising the theorems -/

theorem C1_exactness_witness :
    applyClaims c1b (runSched (initSys 3 3 1 ()) [0, 0, 0]).2 c1m (outAddr c1b 2)
      = c1b.f (fun i => c1m (inAddr c1b i 2)) :=
  C1_exactness 3 1 3 () c1b c1m (by norm_num) (by norm_num) (by decide)
    (by constructor <;> decide) [0, 0, 0] (by decide) 2 (by norm_num) (by norm_num)

theorem C2_partition_accounting_witness :
    (∑ t : Fin 2, (runSched (initSys 5 2 2 ()) [0, 0, 0, 0, 1, 1, 1, 1]).1.completed t) = 5 :=
  (C2_partition_accounting 5 2 2 () (by norm_num) (by norm_num) (by decide)
    [0, 0, 0, 0, 1, 1, 1, 1] (by decide)).2.2.1

theorem C3_queue_invariants_witness :
    0 ≤ ((runSched (initSys 5 2 2 ()) [0, 0]).1.queues 0).next ∧
    ((runSched (runSched (initSys 5 2 2 ()) [0, 0]).1 [1]).1.queues 0).last ≤
      ((runSched (initSys 5 2 2 ()) [0, 0]).1.queues 0).last := by
  have h := @C3_queue_invariants 2 Unit 5 2 2 () (by norm_num) (by norm_num)
    (by decide) [0, 0] [1] 0
  exact ⟨h.1.1, h.2.2⟩

theorem C4_steal_semantics_witness :
    (stepThread wSteal 0).2 = some ⟨0, 1, 344, 256⟩ := by
  have h := C4_steal_semantics wSteal 0 1 false [] rfl
  have h2 := (h.2.1 (by decide)).2.2
  rw [h2]
  decide

theorem C5_dispatcher_init_witness :
    ∑ i : Fin 2, Multiset.Ico ((initQueue 5 (setupChunk 5 2).1 2 (i : ℤ)).next)
      ((initQueue 5 (setupChunk 5 2).1 2 (i : ℤ)).last) = Multiset.Ico 0 5 :=
  (C5_dispatcher_init 5 2 2 (by norm_num) (by norm_num) (by decide)).2.2

theorem C6_termination_witness :
    ([0, 0, 0, 0, 1, 1, 1, 1] : List (Fin 2)).length ≤ (2 + 2) * ((5 : ℤ).toNat + 2) :=
  C6_termination 5 2 2 () (by norm_num) (by norm_num) (by decide)
    [0, 0, 0, 0, 1, 1, 1, 1] (by decide)

theorem C9_degenerate_small_N_witness :
    (runSched (initSys 2 1 2 ()) [0, 0, 0, 0, 1, 1, 1, 1]).1.completed 0 = 1 :=
  (C9_degenerate_small_N 2 4 () (by norm_num) (by norm_num) (by decide)
    [0, 0, 0, 0, 1, 1, 1, 1] (by decide)).2.2 0

theorem C10_frame_witness :
    (stepThread wSteal 1).1.shared = wSteal.shared ∧
    ((stepThread wSteal 1).1.queues 1).last = (wSteal.queues 1).last := by
  have h := (C10_frame wSteal 1).1 rfl
  exact ⟨h.1, h.2.2.1⟩
